import Mathlib

/-!
Verification development for the CASIMAGE ETL core
(`ai_mapper.py`, `enhanced_cleaning.py`, `dw_model.py`).

The Python sources are shallowly embedded: strings are modelled as
`List Char`, `None`/`NaN` cells as `Option`, raised exceptions as
`Except`, and the specific regular expressions used by the code as
executable matchers over `List Char` with Python `\b` semantics.
Character classes are modelled at the code-point level; `str.lower()`
is modelled on ASCII plus the Latin-1 letter block, which covers every
character the embedded patterns and theorems touch.
-/

namespace Casimage

/-- Valid code points below the surrogate range round-trip through `Char.ofNat`. -/
theorem charOfNat_toNat (n : Nat) (h : n < 0xD800) : (Char.ofNat n).toNat = n := by
  have hv : Nat.isValidChar n := Or.inl h
  simp only [Char.ofNat, hv, dif_pos, Char.ofNatAux, Char.toNat]
  rfl

/-- Membership in the Python character class `[A-Za-z0-9_]`. -/
def isWordCh (c : Char) : Bool :=
  decide ((65 ≤ c.toNat ∧ c.toNat ≤ 90) ∨ (97 ≤ c.toNat ∧ c.toNat ≤ 122) ∨
    (48 ≤ c.toNat ∧ c.toNat ≤ 57) ∨ c.toNat = 95)

/-- Lowercase-or-digit-or-underscore characters (the fixed points of lowering
inside the word class). -/
def isLowerWordCh (c : Char) : Bool :=
  decide ((97 ≤ c.toNat ∧ c.toNat ≤ 122) ∨ (48 ≤ c.toNat ∧ c.toNat ≤ 57) ∨ c.toNat = 95)

/-- Model of Python `str.lower()` per character: ASCII `A-Z` and the Latin-1
uppercase letters `À-Þ` (excluding `×`) shift down by 32; everything else is fixed. -/
def pyLowerChar (c : Char) : Char :=
  if (65 ≤ c.toNat ∧ c.toNat ≤ 90) ∨
      (0xC0 ≤ c.toNat ∧ c.toNat ≤ 0xDE ∧ c.toNat ≠ 0xD7) then
    Char.ofNat (c.toNat + 32)
  else c

/-- Model of the whitespace class stripped by Python `str.strip()` (ASCII part). -/
def pyIsSpace (c : Char) : Bool :=
  decide (c.toNat = 32 ∨ (9 ≤ c.toNat ∧ c.toNat ≤ 13))

/-- Python `s.strip(chars)`: drop the characters satisfying `p` from both ends. -/
def pyStripChars (p : Char → Bool) (s : List Char) : List Char :=
  (s.dropWhile p).rdropWhile p

/-- Helper for `collapseNonWord`; the flag records whether the scanner is
inside a run of non-word characters whose underscore was already emitted. -/
def collapseAux : Bool → List Char → List Char
  | _, [] => []
  | inRun, c :: cs =>
    if isWordCh c then c :: collapseAux false cs
    else if inRun then collapseAux true cs
    else '_' :: collapseAux true cs

/-- Model of `re.sub(r"[^A-Za-z0-9_]+", "_", s)`: each maximal run of
non-word characters becomes a single underscore. -/
def collapseNonWord (l : List Char) : List Char := collapseAux false l

/-- Shared part of the column-name normalization: strip whitespace, collapse
non-word runs to a single underscore, strip boundary underscores, lowercase. -/
def normCore (rawTag : List Char) : List Char :=
  (pyStripChars (fun c => c = '_')
    (collapseNonWord (pyStripChars pyIsSpace rawTag))).map pyLowerChar

/-- Column-name normalization from `_infer_types_from_samples`
(`ai_mapper.py` lines 68-69): `re.sub(r"[^A-Za-z0-9_]+", "_", raw_tag.strip())`
then `.strip("_").lower() or "unknown"`. -/
def normalizeTag (rawTag : List Char) : List Char :=
  if (normCore rawTag).isEmpty then "unknown".toList else normCore rawTag

/-- String-level wrapper of `normalizeTag`. -/
def normalizeTagS (s : String) : String := ⟨normalizeTag s.toList⟩

/-- Characters are determined by their code point. -/
theorem charToNat_inj {c d : Char} (h : c.toNat = d.toNat) : c = d := by
  apply Char.eq_of_val_eq
  exact UInt32.ext h

/-- Lowering fixes characters that are already lowercase/digit/underscore. -/
theorem pyLowerChar_fixed {c : Char} (h : isLowerWordCh c = true) : pyLowerChar c = c := by
  simp only [isLowerWordCh, decide_eq_true_eq] at h
  unfold pyLowerChar
  rw [if_neg]; omega

/-- Lowering a word character yields a lowercase/digit/underscore character. -/
theorem isLowerWordCh_pyLowerChar {c : Char} (h : isWordCh c = true) :
    isLowerWordCh (pyLowerChar c) = true := by
  simp only [isWordCh, decide_eq_true_eq] at h
  unfold pyLowerChar
  split
  · rename_i hc
    have hval : (Char.ofNat (c.toNat + 32)).toNat = c.toNat + 32 :=
      charOfNat_toNat _ (by omega)
    simp only [isLowerWordCh, decide_eq_true_eq, hval]
    omega
  · simp only [isLowerWordCh, decide_eq_true_eq]
    omega

/-- Lowering maps only the underscore to the underscore. -/
theorem pyLowerChar_eq_underscore {c : Char} (h : pyLowerChar c = '_') : c = '_' := by
  unfold pyLowerChar at h
  by_cases hc : (65 ≤ c.toNat ∧ c.toNat ≤ 90) ∨
      (0xC0 ≤ c.toNat ∧ c.toNat ≤ 0xDE ∧ c.toNat ≠ 0xD7)
  · rw [if_pos hc] at h
    have hval : (Char.ofNat (c.toNat + 32)).toNat = c.toNat + 32 :=
      charOfNat_toNat _ (by omega)
    have := congrArg Char.toNat h
    rw [hval] at this
    have hu : ('_').toNat = 95 := rfl
    rw [hu] at this
    exact absurd this (by omega)
  · rwa [if_neg hc] at h

/-- Every character emitted by `collapseAux` lies in the word class. -/
theorem isWordCh_of_mem_collapseAux :
    ∀ (b : Bool) (l : List Char), ∀ c ∈ collapseAux b l, isWordCh c = true := by
  intro b l
  induction l generalizing b with
  | nil => intro c hc; simp [collapseAux] at hc
  | cons d ds ih =>
    intro c hc
    simp only [collapseAux] at hc
    by_cases hw : isWordCh d
    · rw [if_pos hw] at hc
      rcases List.mem_cons.mp hc with h | h
      · exact h ▸ hw
      · exact ih false c h
    · rw [if_neg hw] at hc
      cases b with
      | true => exact ih true c hc
      | false =>
        simp only [if_neg, Bool.false_eq_true, ite_false] at hc
        rcases List.mem_cons.mp hc with h | h
        · subst h; decide
        · exact ih true c h

/-- Word-only lists are fixed points of `collapseAux`. -/
theorem collapseAux_eq_self {l : List Char} (h : ∀ c ∈ l, isWordCh c = true) :
    ∀ b, collapseAux b l = l := by
  induction l with
  | nil => intro b; rfl
  | cons d ds ih =>
    intro b
    have hd : isWordCh d = true := h d (List.mem_cons_self _ _)
    simp only [collapseAux, hd, if_pos]
    rw [ih (fun c hc => h c (List.mem_cons_of_mem _ hc)) false]

/-- Membership is preserved downward by `pyStripChars`. -/
theorem mem_of_mem_pyStripChars {p : Char → Bool} {l : List Char} {c : Char}
    (h : c ∈ pyStripChars p l) : c ∈ l := by
  unfold pyStripChars at h
  exact (List.dropWhile_suffix p).sublist.mem
    ((List.rdropWhile_prefix p _).sublist.mem h)

/-- Lists with no character satisfying `p` are fixed points of `pyStripChars`. -/
theorem pyStripChars_eq_self {p : Char → Bool} {l : List Char}
    (h : ∀ c ∈ l, p c = false) : pyStripChars p l = l := by
  unfold pyStripChars
  have h1 : l.dropWhile p = l := by
    apply List.dropWhile_eq_self_iff.mpr
    intro hl hp
    have hmem : l.get ⟨0, hl⟩ ∈ l := List.get_mem l 0 hl
    rw [h _ hmem] at hp
    exact Bool.noConfusion hp
  rw [h1]
  apply List.rdropWhile_eq_self_iff.mpr
  intro hl hp
  rw [h _ (List.getLast_mem hl)] at hp
  exact Bool.noConfusion hp

/-- Nonempty prefixes share their head with the full list. -/
theorem head?_of_pre {α : Type} {l₁ l₂ : List α} {c : α}
    (hp : l₁ <+: l₂) (h : l₁.head? = some c) : l₂.head? = some c := by
  obtain ⟨t, rfl⟩ := hp
  cases l₁ with
  | nil => exact Option.noConfusion h
  | cons x xs => simpa using h

/-- Heads surviving `dropWhile p` fail `p`. -/
theorem dropWhile_head?_not {α : Type} {p : α → Bool} {l : List α} {c : α}
    (h : (l.dropWhile p).head? = some c) : p c = false := by
  have hne : l.dropWhile p ≠ [] := by
    intro hnil; rw [hnil] at h; exact Option.noConfusion h
  have hw := List.head_dropWhile_not p l hne
  rw [List.head?_eq_head hne] at h
  rw [Option.some_inj.mp h] at hw
  simpa using hw

/-- Heads surviving `pyStripChars p` fail `p`. -/
theorem pyStripChars_head_not {p : Char → Bool} {l : List Char} {c : Char}
    (h : (pyStripChars p l).head? = some c) : p c = false :=
  dropWhile_head?_not (head?_of_pre (List.rdropWhile_prefix p _) h)

/-- Last characters surviving `pyStripChars p` fail `p`. -/
theorem pyStripChars_getLast_not {p : Char → Bool} {l : List Char} {c : Char}
    (h : (pyStripChars p l).getLast? = some c) : p c = false := by
  unfold pyStripChars at h
  have hne : (l.dropWhile p).rdropWhile p ≠ [] := by
    intro hnil; rw [hnil] at h; exact Option.noConfusion h
  have hw := List.rdropWhile_last_not p (l.dropWhile p) hne
  rw [List.getLast?_eq_getLast _ hne] at h
  rw [Option.some_inj.mp h] at hw
  simpa using hw

/-- Every character of `normCore` output is lowercase/digit/underscore. -/
theorem normCore_mem_lower {l : List Char} : ∀ c ∈ normCore l, isLowerWordCh c = true := by
  intro c hc
  obtain ⟨d, hd, hdc⟩ := List.mem_map.mp hc
  have hdw : isWordCh d = true :=
    isWordCh_of_mem_collapseAux false _ d (mem_of_mem_pyStripChars hd)
  exact hdc ▸ isLowerWordCh_pyLowerChar hdw

/-- The `normCore` output never starts with an underscore. -/
theorem normCore_head_not (l : List Char) : (normCore l).head? ≠ some '_' := by
  intro hhead
  unfold normCore at hhead
  rw [List.head?_map] at hhead
  cases hh : (pyStripChars (fun c => c = '_')
      (collapseNonWord (pyStripChars pyIsSpace l))).head? with
  | none => rw [hh] at hhead; exact Option.noConfusion hhead
  | some d =>
    rw [hh] at hhead
    simp only [Option.map_some', Option.some_inj] at hhead
    have hdu : d = '_' := pyLowerChar_eq_underscore hhead
    have := pyStripChars_head_not hh
    rw [hdu] at this
    simp at this

/-- The `normCore` output never ends with an underscore. -/
theorem normCore_getLast_not (l : List Char) : (normCore l).getLast? ≠ some '_' := by
  intro hlast
  unfold normCore at hlast
  rw [List.getLast?_map] at hlast
  cases hh : (pyStripChars (fun c => c = '_')
      (collapseNonWord (pyStripChars pyIsSpace l))).getLast? with
  | none => rw [hh] at hlast; exact Option.noConfusion hlast
  | some d =>
    rw [hh] at hlast
    simp only [Option.map_some', Option.some_inj] at hlast
    have hdu : d = '_' := pyLowerChar_eq_underscore hlast
    have := pyStripChars_getLast_not hh
    rw [hdu] at this
    simp at this

/-- Shape invariant of every normalized column name: non-empty, all characters
lowercase/digit/underscore, and no underscore at either end. -/
theorem normalizeTag_invariant (l : List Char) :
    normalizeTag l ≠ [] ∧ (∀ c ∈ normalizeTag l, isLowerWordCh c = true) ∧
      (normalizeTag l).head? ≠ some '_' ∧ (normalizeTag l).getLast? ≠ some '_' := by
  unfold normalizeTag
  by_cases hemp : (normCore l).isEmpty
  · simp only [hemp, if_pos]
    refine ⟨by decide, ?_, by decide, by decide⟩
    intro c hc
    fin_cases hc <;> decide
  · simp only [hemp, Bool.false_eq_true, if_neg, ite_false]
    exact ⟨by simpa [List.isEmpty_iff] using hemp, normCore_mem_lower,
      normCore_head_not l, normCore_getLast_not l⟩

/-- Lists satisfying the shape invariant are fixed points of `normalizeTag`. -/
theorem normalizeTag_eq_self {y : List Char} (hne : y ≠ [])
    (hlow : ∀ c ∈ y, isLowerWordCh c = true)
    (hhead : y.head? ≠ some '_') (hlast : y.getLast? ≠ some '_') :
    normalizeTag y = y := by
  have hword : ∀ c ∈ y, isWordCh c = true := by
    intro c hc
    have := hlow c hc
    simp only [isLowerWordCh, decide_eq_true_eq] at this
    simp only [isWordCh, decide_eq_true_eq]
    omega
  have h1 : pyStripChars pyIsSpace y = y := by
    apply pyStripChars_eq_self
    intro c hc
    have := hlow c hc
    simp only [isLowerWordCh, decide_eq_true_eq] at this
    simp only [pyIsSpace, decide_eq_false_iff_not]
    omega
  have h2 : collapseNonWord y = y := collapseAux_eq_self hword false
  have h3 : pyStripChars (fun c => c = '_') y = y := by
    unfold pyStripChars
    have hdw : y.dropWhile (fun c => decide (c = '_')) = y := by
      apply List.dropWhile_eq_self_iff.mpr
      intro hl hp
      apply hhead
      have hh : y.head? = some (y.get ⟨0, hl⟩) := by
        cases y with
        | nil => simp at hl
        | cons a as => rfl
      rw [hh]
      simpa using hp
    rw [hdw]
    apply List.rdropWhile_eq_self_iff.mpr
    intro hl hp
    apply hlast
    rw [List.getLast?_eq_getLast _ hl]
    simpa using hp
  have h4 : y.map pyLowerChar = y := by
    rw [List.map_congr_left (fun c hc => pyLowerChar_fixed (hlow c hc))]
    exact List.map_id y
  have hcore : normCore y = y := by
    unfold normCore
    rw [h1, h2, h3, h4]
  unfold normalizeTag
  rw [hcore]
  simp [List.isEmpty_iff, hne]

/-- C8: column-name normalization (strip/collapse non-word runs to underscore,
strip boundary underscores, lowercase, default `"unknown"`) is idempotent. -/
theorem normalizeTag_idempotent (s : String) :
    normalizeTagS (normalizeTagS s) = normalizeTagS s := by
  obtain ⟨hne, hlow, hhead, hlast⟩ := normalizeTag_invariant s.toList
  show String.mk (normalizeTag (String.toList ⟨normalizeTag s.toList⟩)) =
    String.mk (normalizeTag s.toList)
  have : String.toList ⟨normalizeTag s.toList⟩ = normalizeTag s.toList := rfl
  rw [this, normalizeTag_eq_self hne hlow hhead hlast]

/-! ### Type inference from samples (`_infer_types_from_samples`, `ai_mapper.py`) -/

/-- Decimal digit characters (`\d` over the inputs at hand). -/
def isDigitCh (c : Char) : Bool := decide (48 ≤ c.toNat ∧ c.toNat ≤ 57)

/-- Model of `re.fullmatch(r"-?\d+", s)`. -/
def matchIntRe (l : List Char) : Bool :=
  match l with
  | '-' :: rest => !rest.isEmpty && rest.all isDigitCh
  | _ => !l.isEmpty && l.all isDigitCh

/-- Model of `re.fullmatch(r"-?\d+\.\d+", s)`. -/
def matchFloatRe (l : List Char) : Bool :=
  let body := match l with
    | '-' :: rest => rest
    | _ => l
  let intPart := body.takeWhile isDigitCh
  let rest := body.dropWhile isDigitCh
  !intPart.isEmpty &&
    (match rest with
     | '.' :: frac => !frac.isEmpty && frac.all isDigitCh
     | _ => false)

/-- Proleptic Gregorian leap-year rule used by `datetime.date`. -/
def isLeapYear (y : Nat) : Bool := decide (y % 4 = 0 ∧ (y % 100 ≠ 0 ∨ y % 400 = 0))

/-- Length of each month per `datetime.date`. -/
def daysInMonth (y m : Nat) : Nat :=
  if m = 1 ∨ m = 3 ∨ m = 5 ∨ m = 7 ∨ m = 8 ∨ m = 10 ∨ m = 12 then 31
  else if m = 4 ∨ m = 6 ∨ m = 9 ∨ m = 11 then 30
  else if m = 2 then (if isLeapYear y then 29 else 28)
  else 0

/-- Calendar validity as enforced by `datetime.date.fromisoformat`
(`MINYEAR = 1`, `MAXYEAR = 9999`). -/
def validYmd (y m d : Nat) : Bool :=
  decide (1 ≤ y ∧ y ≤ 9999 ∧ 1 ≤ m ∧ m ≤ 12 ∧ 1 ≤ d) && decide (d ≤ daysInMonth y m)

/-- Numeric value of a digit string. -/
def digitsToNat (ds : List Char) : Nat :=
  ds.foldl (fun a c => a * 10 + (c.toNat - 48)) 0

/-- Model of `re.fullmatch(r"\d{4}-\d{2}-\d{2}", s)` followed by
`datetime.date.fromisoformat(s)` succeeding. -/
def matchIsoDate (l : List Char) : Bool :=
  match l with
  | [y1, y2, y3, y4, '-', m1, m2, '-', d1, d2] =>
    [y1, y2, y3, y4, m1, m2, d1, d2].all isDigitCh &&
      validYmd (digitsToNat [y1, y2, y3, y4]) (digitsToNat [m1, m2]) (digitsToNat [d1, d2])
  | _ => false

/-- The four column types of the mapping schema. -/
inductive ColType where
  | string
  | int
  | float
  | date
deriving DecidableEq, Repr

/-- Wire name of each column type. -/
def ColType.render : ColType → List Char
  | .string => "string".toList
  | .int => "int".toList
  | .float => "float".toList
  | .date => "date".toList

/-- Sample-value classification of `_infer_types_from_samples` (`ai_mapper.py`
lines 71-92): strip, then try the integer regex, the float regex, and the
calendar-checked ISO-date regex in that order; default `string`. -/
def classifyValue (value : List Char) : ColType :=
  let cleaned := pyStripChars pyIsSpace value
  if cleaned.isEmpty then .string
  else if matchIntRe cleaned then .int
  else if matchFloatRe cleaned then .float
  else if matchIsoDate cleaned then .date
  else .string

/-- Ordered-dict insertion: overwrite in place on key collision, else append. -/
def dictInsert {β : Type} (k : List Char) (v : β) :
    List (List Char × β) → List (List Char × β)
  | [] => [(k, v)]
  | (k0, v0) :: rest =>
    if k0 = k then (k0, v) :: rest else (k0, v0) :: dictInsert k v rest

/-- The `schema` dict of `_infer_types_from_samples`: one entry per normalized
tag name, the last sample of a name winning its type slot. -/
def buildSchema (samples : List (List Char × List Char)) : List (List Char × ColType) :=
  samples.foldl (fun acc s => dictInsert (normalizeTag s.1) (classifyValue s.2) acc) []

/-- Lexicographic comparison of code-point lists, as Python string `<=`. -/
def listCharLe : List Char → List Char → Bool
  | [], _ => true
  | _ :: _, [] => false
  | a :: as, b :: bs =>
    decide (a.toNat < b.toNat) || (decide (a.toNat = b.toNat) && listCharLe as bs)

/-- Ordering of schema entries used by `sorted(schema.items())`; keys are
distinct so the tuple comparison never reaches the values. -/
def schemaLe (a b : List Char × ColType) : Prop := listCharLe a.1 b.1 = true

instance : DecidableRel schemaLe := fun a b => decEq (listCharLe a.1 b.1) true

/-- A synthesized column: `name`, `type` and `source_xpath` fields of the
emitted mapping JSON. -/
structure ColumnMapping where
  name : List Char
  type : ColType
  source_xpath : List Char
deriving DecidableEq, Repr

/-- Columns of the mapping produced by `_infer_types_from_samples`: the schema
entries sorted by name, each with `source_xpath` `f"//{col_name}"`. -/
def inferColumns (samples : List (List Char × List Char)) : List ColumnMapping :=
  (List.insertionSort schemaLe (buildSchema samples)).map
    (fun p => ⟨p.1, p.2, '/' :: '/' :: p.1⟩)

/-- The inserted key is among the keys after `dictInsert`. -/
theorem mem_keys_dictInsert {β : Type} (k : List Char) (v : β)
    (d : List (List Char × β)) : k ∈ (dictInsert k v d).map Prod.fst := by
  induction d with
  | nil => simp [dictInsert]
  | cons e rest ih =>
    obtain ⟨k0, v0⟩ := e
    by_cases h : k0 = k
    · simp only [dictInsert, h, if_pos, ite_true, List.map_cons]
      exact List.mem_cons.mpr (Or.inl rfl)
    · simp only [dictInsert, h, if_neg, ite_false, List.map_cons, List.mem_cons]
      exact Or.inr ih

/-- Existing keys survive `dictInsert`. -/
theorem keys_mono_dictInsert {β : Type} {k1 : List Char} (k : List Char) (v : β)
    {d : List (List Char × β)} (h : k1 ∈ d.map Prod.fst) :
    k1 ∈ (dictInsert k v d).map Prod.fst := by
  induction d with
  | nil => simp at h
  | cons e rest ih =>
    obtain ⟨k0, v0⟩ := e
    by_cases he : k0 = k
    · simp only [List.map_cons, he] at h
      simp only [dictInsert, he, if_pos, ite_true, List.map_cons]
      exact h
    · simp only [List.map_cons, List.mem_cons] at h
      simp only [dictInsert, he, if_neg, ite_false, List.map_cons, List.mem_cons]
      rcases h with h | h
      · exact Or.inl h
      · exact Or.inr (ih h)

/-- Keys present after `dictInsert` were present before or are the inserted key. -/
theorem keys_dictInsert_sub {β : Type} {k1 k : List Char} {v : β}
    {d : List (List Char × β)} (h : k1 ∈ (dictInsert k v d).map Prod.fst) :
    k1 = k ∨ k1 ∈ d.map Prod.fst := by
  induction d with
  | nil => simpa [dictInsert] using h
  | cons e rest ih =>
    obtain ⟨k0, v0⟩ := e
    by_cases he : k0 = k
    · simp only [dictInsert, he, if_pos, ite_true, List.map_cons, List.mem_cons] at h
      rcases h with h | h
      · exact Or.inr (List.mem_cons.mpr (Or.inl (he ▸ h)))
      · exact Or.inr (List.mem_cons.mpr (Or.inr h))
    · simp only [dictInsert, he, if_neg, ite_false, List.map_cons, List.mem_cons] at h
      rcases h with h | h
      · exact Or.inr (List.mem_cons.mpr (Or.inl h))
      · rcases ih h with h1 | h1
        · exact Or.inl h1
        · exact Or.inr (List.mem_cons.mpr (Or.inr h1))

/-- Key distinctness is preserved by `dictInsert`. -/
theorem nodup_keys_dictInsert {β : Type} {k : List Char} {v : β}
    {d : List (List Char × β)} (h : (d.map Prod.fst).Nodup) :
    ((dictInsert k v d).map Prod.fst).Nodup := by
  induction d with
  | nil => simp [dictInsert]
  | cons e rest ih =>
    obtain ⟨k0, v0⟩ := e
    simp only [List.map_cons, List.nodup_cons] at h
    by_cases he : k0 = k
    · simp only [dictInsert, he, if_pos, ite_true, List.map_cons, List.nodup_cons]
      exact ⟨he ▸ h.1, h.2⟩
    · simp only [dictInsert, he, if_neg, ite_false, List.map_cons, List.nodup_cons]
      refine ⟨fun hmem => ?_, ih h.2⟩
      rcases keys_dictInsert_sub hmem with h1 | h1
      · exact he h1
      · exact h.1 h1

/-- Entries after `dictInsert` are the inserted pair or previous entries. -/
theorem mem_dictInsert_elim {β : Type} {e : List Char × β} {k : List Char} {v : β}
    {d : List (List Char × β)} (h : e ∈ dictInsert k v d) :
    e = (k, v) ∨ e ∈ d := by
  induction d with
  | nil => simpa [dictInsert] using h
  | cons e0 rest ih =>
    obtain ⟨k0, v0⟩ := e0
    by_cases he : k0 = k
    · simp only [dictInsert, he, if_pos, ite_true, List.mem_cons] at h
      rcases h with h | h
      · exact Or.inl h
      · exact Or.inr (List.mem_cons_of_mem _ h)
    · simp only [dictInsert, he, if_neg, ite_false, List.mem_cons] at h
      rcases h with h | h
      · exact Or.inr (List.mem_cons.mpr (Or.inl h))
      · rcases ih h with h1 | h1
        · exact Or.inl h1
        · exact Or.inr (List.mem_cons_of_mem _ h1)

/-- The schema keys are distinct: one entry per distinct normalized name. -/
theorem buildSchema_keys_nodup (samples : List (List Char × List Char)) :
    ((buildSchema samples).map Prod.fst).Nodup := by
  suffices h : ∀ acc : List (List Char × ColType), (acc.map Prod.fst).Nodup →
      ((samples.foldl
        (fun acc s => dictInsert (normalizeTag s.1) (classifyValue s.2) acc) acc).map
          Prod.fst).Nodup by
    exact h [] (by simp)
  induction samples with
  | nil => intro acc hacc; simpa using hacc
  | cons s rest ih =>
    intro acc hacc
    exact ih _ (nodup_keys_dictInsert hacc)

/-- Every sample's normalized tag name appears among the schema keys. -/
theorem buildSchema_mem (samples : List (List Char × List Char)) :
    ∀ s ∈ samples, normalizeTag s.1 ∈ (buildSchema samples).map Prod.fst := by
  suffices h : ∀ acc : List (List Char × ColType),
      ∀ k, (k ∈ acc.map Prod.fst ∨ ∃ s ∈ samples, k = normalizeTag s.1) →
      k ∈ ((samples.foldl
        (fun acc s => dictInsert (normalizeTag s.1) (classifyValue s.2) acc) acc).map
          Prod.fst) by
    intro s hs
    exact h [] _ (Or.inr ⟨s, hs, rfl⟩)
  induction samples with
  | nil =>
    intro acc k hk
    rcases hk with hk | ⟨s, hs, _⟩
    · exact hk
    · exact absurd hs (List.not_mem_nil s)
  | cons s0 rest ih =>
    intro acc k hk
    simp only [List.foldl_cons]
    apply ih
    rcases hk with hk | ⟨s, hs, hks⟩
    · exact Or.inl (keys_mono_dictInsert _ _ hk)
    · rcases List.mem_cons.mp hs with h | h
      · exact Or.inl (by rw [hks, h]; exact mem_keys_dictInsert _ _ _)
      · exact Or.inr ⟨s, h, hks⟩

/-- Entries of the schema fold come from the accumulator or from a sample. -/
theorem schemaFold_prov (ss : List (List Char × List Char)) :
    ∀ (acc : List (List Char × ColType)),
      ∀ e ∈ ss.foldl
        (fun acc s => dictInsert (normalizeTag s.1) (classifyValue s.2) acc) acc,
      e ∈ acc ∨ ∃ s ∈ ss, e.1 = normalizeTag s.1 ∧ e.2 = classifyValue s.2 := by
  induction ss with
  | nil => intro acc e he; exact Or.inl (by simpa using he)
  | cons s0 rest ih =>
    intro acc e he
    simp only [List.foldl_cons] at he
    rcases ih _ e he with h | ⟨s, hs, hmat⟩
    · rcases mem_dictInsert_elim h with h1 | h1
      · exact Or.inr ⟨s0, List.mem_cons_self _ _, by simp [h1]⟩
      · exact Or.inl h1
    · exact Or.inr ⟨s, List.mem_cons_of_mem _ hs, hmat⟩

/-- Every schema entry is the normalized name and classified value of one of
the samples. -/
theorem buildSchema_prov (samples : List (List Char × List Char)) :
    ∀ e ∈ buildSchema samples,
      ∃ s ∈ samples, e.1 = normalizeTag s.1 ∧ e.2 = classifyValue s.2 := by
  intro e he
  rcases schemaFold_prov samples [] e he with h | h
  · simp at h
  · exact h

/-- Totality of the lexicographic comparison. -/
theorem listCharLe_total : ∀ a b : List Char, listCharLe a b = true ∨ listCharLe b a = true := by
  intro a
  induction a with
  | nil => intro b; exact Or.inl rfl
  | cons x xs ih =>
    intro b
    cases b with
    | nil => exact Or.inr rfl
    | cons y ys =>
      by_cases hxy : x.toNat < y.toNat
      · exact Or.inl (by simp [listCharLe, hxy])
      · by_cases hyx : y.toNat < x.toNat
        · exact Or.inr (by simp [listCharLe, hyx])
        · have heq : x.toNat = y.toNat := by omega
          rcases ih ys with h | h
          · exact Or.inl (by simp [listCharLe, heq, h])
          · exact Or.inr (by simp [listCharLe, heq.symm, h])

/-- Transitivity of the lexicographic comparison. -/
theorem listCharLe_trans : ∀ a b c : List Char,
    listCharLe a b = true → listCharLe b c = true → listCharLe a c = true := by
  intro a
  induction a with
  | nil => intro b c _ _; rfl
  | cons x xs ih =>
    intro b c hab hbc
    cases b with
    | nil => exact absurd hab (by simp [listCharLe])
    | cons y ys =>
      cases c with
      | nil => exact absurd hbc (by simp [listCharLe])
      | cons z zs =>
        simp only [listCharLe, Bool.or_eq_true, Bool.and_eq_true, decide_eq_true_eq] at hab hbc ⊢
        rcases hab with h1 | ⟨h1, h1r⟩
        · rcases hbc with h2 | ⟨h2, _⟩
          · omega
          · omega
        · rcases hbc with h2 | ⟨h2, h2r⟩
          · omega
          · exact Or.inr ⟨by omega, ih ys zs h1r h2r⟩

instance : IsTotal (List Char × ColType) schemaLe :=
  ⟨fun a b => listCharLe_total a.1 b.1⟩

instance : IsTrans (List Char × ColType) schemaLe :=
  ⟨fun a b c => listCharLe_trans a.1 b.1 c.1⟩

/-- Amended C7: local inference emits exactly one column per distinct
normalized tag name (distinct names, every sample represented, every column
from a sample), sorted alphabetically, with `source_xpath` `//<name>` (not
`/<name>`), each column typed by classifying the sample value that last wrote
its name, where the classifier maps `"2023-01-05"` to `date`, `"42"` to `int`,
`"3.14"` to `float`, `"foo"` to `string`, and an invalid calendar date such as
`"2023-02-30"` to `string`. -/
theorem inferColumns_amended (samples : List (List Char × List Char)) :
    ((inferColumns samples).map ColumnMapping.name).Nodup ∧
    (∀ s ∈ samples,
      normalizeTag s.1 ∈ (inferColumns samples).map ColumnMapping.name) ∧
    (∀ col ∈ inferColumns samples, ∃ s ∈ samples,
      col.name = normalizeTag s.1 ∧ col.type = classifyValue s.2) ∧
    (inferColumns samples).Pairwise (fun a b => listCharLe a.name b.name = true) ∧
    (∀ col ∈ inferColumns samples, col.source_xpath = '/' :: '/' :: col.name) ∧
    classifyValue "2023-01-05".toList = .date ∧
    classifyValue "42".toList = .int ∧
    classifyValue "3.14".toList = .float ∧
    classifyValue "foo".toList = .string ∧
    classifyValue "2023-02-30".toList = .string := by
  have hperm : List.Perm (List.insertionSort schemaLe (buildSchema samples))
      (buildSchema samples) :=
    List.perm_insertionSort schemaLe (buildSchema samples)
  refine ⟨?_, ?_, ?_, ?_, ?_, by decide, by decide, by decide, by decide, by decide⟩
  · have hmapeq : (inferColumns samples).map ColumnMapping.name =
        (List.insertionSort schemaLe (buildSchema samples)).map Prod.fst := by
      unfold inferColumns
      rw [List.map_map]
      rfl
    rw [hmapeq]
    exact ((hperm.map Prod.fst).nodup_iff).mpr (buildSchema_keys_nodup samples)
  · intro s hs
    have hmapeq : (inferColumns samples).map ColumnMapping.name =
        (List.insertionSort schemaLe (buildSchema samples)).map Prod.fst := by
      unfold inferColumns
      rw [List.map_map]
      rfl
    rw [hmapeq]
    exact ((hperm.map Prod.fst).mem_iff).mpr (buildSchema_mem samples s hs)
  · intro col hcol
    unfold inferColumns at hcol
    obtain ⟨p, hp, hpc⟩ := List.mem_map.mp hcol
    obtain ⟨s, hs, h1, h2⟩ := buildSchema_prov samples p (hperm.mem_iff.mp hp)
    exact ⟨s, hs, by rw [← hpc]; exact h1, by rw [← hpc]; exact h2⟩
  · unfold inferColumns
    apply List.Pairwise.map
    · intro a b hab
      exact hab
    · exact List.sorted_insertionSort schemaLe (buildSchema samples)
  · intro col hcol
    unfold inferColumns at hcol
    obtain ⟨p, _, hpc⟩ := List.mem_map.mp hcol
    rw [← hpc]

/-- C7 as stated is false: the code writes `source_xpath` `f"//{col_name}"`,
a double slash, not `/<name>`; witnessed on the single sample `("id", "1")`. -/
theorem inferColumns_source_xpath_counterexample :
    ∃ col ∈ inferColumns [("id".toList, "1".toList)],
      col.source_xpath ≠ '/' :: col.name := by decide

/-- Closed instance of `inferColumns_amended` at the sample list
`[("id", "1")]`, discharging its membership hypotheses concretely. -/
theorem inferColumns_amended_witness :
    ∃ s ∈ [("id".toList, "1".toList)],
      (⟨"id".toList, ColType.int, "//id".toList⟩ : ColumnMapping).name = normalizeTag s.1 ∧
      (⟨"id".toList, ColType.int, "//id".toList⟩ : ColumnMapping).type = classifyValue s.2 :=
  (inferColumns_amended [("id".toList, "1".toList)]).2.2.1
    ⟨"id".toList, ColType.int, "//id".toList⟩ (by decide)

/-! ### Records and simplified path resolution (`apply_mapping_to_record`, `ai_mapper.py`) -/

/-- Values of the `xmltodict` output consumed by `apply_mapping_to_record`:
strings, `None` (empty elements), lists and (insertion-ordered) dicts. -/
inductive Node where
  | scalar (text : List Char)
  | null
  | list (items : List Node)
  | map (entries : List (List Char × Node))

/-- Lowercasing of a whole string (`str.lower()`). -/
def pyLowerList (l : List Char) : List Char := l.map pyLowerChar

/-- Splitting of `xpath.strip("/").split("/")` followed by dropping empty
segments, as in `get_by_xpath` (`ai_mapper.py` line 235). -/
def splitPath (xpath : List Char) : List (List Char) :=
  ((pyStripChars (fun c => c = '/') xpath).splitOn '/').filter (fun k => !k.isEmpty)

/-- The `None`-propagation of the resolver: a dict value of `None` stops the
walk exactly like a missing key, since both make `next_val` `None`. -/
def denull : Node → Option Node
  | .null => none
  | n => some n

/-- Loop body of `get_by_xpath` for one segment: flatten a list to its first
element (an empty list leaves `None`), fail on non-dicts, then fetch the first
case-insensitively matching entry, failing if it is absent or `None`. -/
def resolveStep (current : Node) (key : List Char) : Option Node :=
  let current2 := match current with
    | .list [] => Node.null
    | .list (x :: _) => x
    | c => c
  match current2 with
  | .map entries =>
    match entries.find? (fun e => decide (pyLowerList e.1 = pyLowerList key)) with
    | none => none
    | some e => denull e.2
  | _ => none

/-- Recursive form of the `get_by_xpath` walk over the parsed segments,
including the final flattening of a list result to its first element. -/
def getByXpathAux : Node → List (List Char) → Option Node
  | current, [] =>
    match current with
    | .list [] => none
    | .list (x :: _) => denull x
    | c => some c
  | current, key :: rest =>
    match resolveStep current key with
    | none => none
    | some v => getByXpathAux v rest

/-- The `get_by_xpath` helper of `apply_mapping_to_record`
(`ai_mapper.py` lines 227-259). -/
def getByXpath (node : Node) (xpath : List Char) : Option Node :=
  getByXpathAux node (splitPath xpath)

/-- Spec §4.2, modelled from its words for the refinement proof: per segment,
a List is replaced by its first element (miss when empty), a non-Map misses,
and a Map yields the first case-insensitively matching entry; a final List
yields its first element. -/
def specReplaceList : Node → Option Node
  | .list items => items.head?
  | c => some c

def specMapLookup (seg : List Char) : Node → Option Node
  | .map entries =>
    (entries.find? (fun e => decide (pyLowerList e.1 = pyLowerList seg))).map
      (fun e => e.2)
  | _ => none

def specStep (current : Node) (seg : List Char) : Option Node :=
  (specReplaceList current).bind (specMapLookup seg)

/-- Spec §4.2 resolver, modelled from its words: fold `specStep` over the
segments and flatten a final List to its first element. -/
def specResolve (root : Node) (segs : List (List Char)) : Option Node :=
  (segs.foldl (fun acc seg => acc.bind (fun c => specStep c seg)) (some root)).bind
    (fun r => match r with
      | .list items => items.head?
      | c => some c)

/-- Nodes of the spec's RawRecord shape (§3): no `None` values anywhere. -/
inductive NoNull : Node → Prop where
  | scalar (t : List Char) : NoNull (.scalar t)
  | list {items : List Node} : (∀ x ∈ items, NoNull x) → NoNull (.list items)
  | map {entries : List (List Char × Node)} :
      (∀ k v, (k, v) ∈ entries → NoNull v) → NoNull (.map entries)

/-- Nodes of the spec shape are not `None`, so `denull` keeps them. -/
theorem denull_of_noNull {x : Node} (h : NoNull x) : denull x = some x := by
  cases h with
  | scalar t => rfl
  | list h => rfl
  | map h => rfl

/-- The per-segment step of the code agrees with the spec's step on spec-shaped
nodes, and steps to spec-shaped nodes. -/
theorem resolveStep_eq_specStep {current : Node} (h : NoNull current) (k : List Char) :
    resolveStep current k = specStep current k ∧
      ∀ v, specStep current k = some v → NoNull v := by
  cases h with
  | scalar t => exact ⟨rfl, fun v hv => Option.noConfusion hv⟩
  | @list items hitems =>
    cases items with
    | nil => exact ⟨rfl, fun v hv => Option.noConfusion hv⟩
    | cons x xs =>
      have hx : NoNull x := hitems x (List.mem_cons_self _ _)
      cases hx with
      | scalar t => exact ⟨rfl, fun v hv => Option.noConfusion hv⟩
      | list h2 => exact ⟨rfl, fun v hv => Option.noConfusion hv⟩
      | @map entries h2 =>
        constructor
        · show resolveStep (.list (Node.map entries :: xs)) k = _
          unfold resolveStep specStep specReplaceList specMapLookup
          simp only [List.head?_cons, Option.some_bind]
          cases hf : entries.find? (fun e => decide (pyLowerList e.1 = pyLowerList k)) with
          | none => rfl
          | some e =>
            obtain ⟨k0, v0⟩ := e
            have hmem := List.mem_of_find?_eq_some hf
            have hv0 : NoNull v0 := h2 k0 v0 hmem
            simp only [Option.map_some']
            exact denull_of_noNull hv0
        · intro v hv
          unfold specStep specReplaceList specMapLookup at hv
          simp only [List.head?_cons, Option.some_bind] at hv
          cases hf : entries.find? (fun e => decide (pyLowerList e.1 = pyLowerList k)) with
          | none => rw [hf] at hv; exact Option.noConfusion hv
          | some e =>
            obtain ⟨k0, v0⟩ := e
            rw [hf] at hv
            simp only [Option.map_some', Option.some_inj] at hv
            exact hv ▸ h2 k0 v0 (List.mem_of_find?_eq_some hf)
  | @map entries h2 =>
    constructor
    · unfold resolveStep specStep specReplaceList specMapLookup
      simp only [Option.some_bind]
      cases hf : entries.find? (fun e => decide (pyLowerList e.1 = pyLowerList k)) with
      | none => rfl
      | some e =>
        obtain ⟨k0, v0⟩ := e
        have hv0 : NoNull v0 := h2 k0 v0 (List.mem_of_find?_eq_some hf)
        simp only [Option.map_some']
        exact denull_of_noNull hv0
    · intro v hv
      unfold specStep specReplaceList specMapLookup at hv
      simp only [Option.some_bind] at hv
      cases hf : entries.find? (fun e => decide (pyLowerList e.1 = pyLowerList k)) with
      | none => rw [hf] at hv; exact Option.noConfusion hv
      | some e =>
        obtain ⟨k0, v0⟩ := e
        rw [hf] at hv
        simp only [Option.map_some', Option.some_inj] at hv
        exact hv ▸ h2 k0 v0 (List.mem_of_find?_eq_some hf)

/-- A dead accumulator keeps the spec fold dead. -/
theorem specFold_none (segs : List (List Char)) :
    segs.foldl (fun acc seg => acc.bind (fun c => specStep c seg)) none = none := by
  induction segs with
  | nil => rfl
  | cons s rest ih => simpa using ih

/-- Refinement of `get_by_xpath` against the spec §4.2 resolver on spec-shaped
records. -/
theorem getByXpathAux_eq_specResolve :
    ∀ (keys : List (List Char)) (node : Node), NoNull node →
      getByXpathAux node keys = specResolve node keys := by
  intro keys
  induction keys with
  | nil =>
    intro node h
    cases h with
    | scalar t => rfl
    | @list items hitems =>
      cases items with
      | nil => rfl
      | cons x xs =>
        show denull x = specResolve (.list (x :: xs)) []
        rw [denull_of_noNull (hitems x (List.mem_cons_self _ _))]
        rfl
    | map h2 => rfl
  | cons k rest ih =>
    intro node h
    obtain ⟨hstep, hpres⟩ := resolveStep_eq_specStep h k
    show (match resolveStep node k with
      | none => none
      | some v => getByXpathAux v rest) = specResolve node (k :: rest)
    rw [hstep]
    unfold specResolve
    rw [List.foldl_cons]
    simp only [Option.some_bind]
    cases hs : specStep node k with
    | none => rw [specFold_none]; rfl
    | some v =>
      have hv : NoNull v := hpres v hs
      show getByXpathAux v rest = _
      rw [ih v hv]
      rfl

/-- The resolver result depends only on the case-folded segments. -/
theorem getByXpathAux_lower_inv :
    ∀ (keys1 keys2 : List (List Char)) (node : Node),
      keys1.map pyLowerList = keys2.map pyLowerList →
      getByXpathAux node keys1 = getByXpathAux node keys2 := by
  intro keys1
  induction keys1 with
  | nil =>
    intro keys2 node h
    cases keys2 with
    | nil => rfl
    | cons k ks => exact absurd h (by simp)
  | cons k1 r1 ih =>
    intro keys2 node h
    cases keys2 with
    | nil => exact absurd h (by simp)
    | cons k2 r2 =>
      simp only [List.map_cons, List.cons.injEq] at h
      obtain ⟨hk, hr⟩ := h
      have hstep : resolveStep node k1 = resolveStep node k2 := by
        unfold resolveStep
        rw [show (fun e : List Char × Node => decide (pyLowerList e.1 = pyLowerList k1)) =
          (fun e : List Char × Node => decide (pyLowerList e.1 = pyLowerList k2)) from
          funext (fun e => by rw [hk])]
      show (match resolveStep node k1 with
        | none => none
        | some v => getByXpathAux v r1) = (match resolveStep node k2 with
        | none => none
        | some v => getByXpathAux v r2)
      rw [hstep]
      cases resolveStep node k2 with
      | none => rfl
      | some v => exact ih r2 v hr

/-- C6: path resolution follows the spec's segment-walk (flatten lists to
their first element, miss on non-maps, case-fold exact key lookup, final list
flattening) on spec-shaped records, and in particular `/Diagnosis` and
`/diagnosis` resolve identically against every record. -/
theorem getByXpath_resolution :
    (∀ (node : Node) (keys : List (List Char)), NoNull node →
      getByXpathAux node keys = specResolve node keys) ∧
    (∀ node : Node,
      getByXpath node (String.toList "/Diagnosis") =
        getByXpath node (String.toList "/diagnosis")) := by
  constructor
  · intro node keys h
    exact getByXpathAux_eq_specResolve keys node h
  · intro node
    unfold getByXpath
    apply getByXpathAux_lower_inv
    decide

/-- Closed instance of `getByXpath_resolution` on the record
`{"Diagnosis": "flu"}` with path `/diagnosis`, discharging `NoNull` concretely. -/
theorem getByXpath_resolution_witness :
    getByXpathAux (Node.map [(String.toList "Diagnosis", Node.scalar (String.toList "flu"))])
      (splitPath (String.toList "/diagnosis")) =
    specResolve (Node.map [(String.toList "Diagnosis", Node.scalar (String.toList "flu"))])
      (splitPath (String.toList "/diagnosis")) :=
  getByXpath_resolution.1
    (Node.map [(String.toList "Diagnosis", Node.scalar (String.toList "flu"))])
    (splitPath (String.toList "/diagnosis"))
    (NoNull.map (by
      intro k v hkv
      simp only [List.mem_singleton, Prod.mk.injEq] at hkv
      rw [hkv.2]
      exact NoNull.scalar _))

/-! ### The record projector (`apply_mapping_to_record`, `ai_mapper.py` lines 207-288) -/

mutual

/-- CPython `repr` of the embedded value domain, used by `str()` on containers.
String escaping corner cases are not modelled; no claim observes the rendered
text of a container. -/
def pyReprNode : Node → List Char
  | .scalar t => '\x27' :: (t ++ ['\x27'])
  | .null => "None".toList
  | .list items => '[' :: (pyReprList items ++ [']'])
  | .map entries => '\x7b' :: (pyReprMap entries ++ ['\x7d'])

/-- Comma-joined `repr` of list items. -/
def pyReprList : List Node → List Char
  | [] => []
  | [x] => pyReprNode x
  | x :: xs => pyReprNode x ++ (',' :: ' ' :: pyReprList xs)

/-- Comma-joined `repr` of dict entries. -/
def pyReprMap : List (List Char × Node) → List Char
  | [] => []
  | [(k, v)] => ('\x27' :: (k ++ ['\x27', ':', ' '])) ++ pyReprNode v
  | (k, v) :: es =>
    (('\x27' :: (k ++ ['\x27', ':', ' '])) ++ pyReprNode v) ++ (',' :: ' ' :: pyReprMap es)

end

/-- Python `str(raw)` over resolved values: a string is itself, `None` prints
as `None`, containers print as their `repr`. -/
def pyStr : Node → List Char
  | .scalar t => t
  | n => pyReprNode n

/-- Python `int(val)` on strings: strip whitespace, one optional sign, then a
non-empty digit run (digit-group underscores are not modelled; no sample or
claim uses them). -/
def pyIntParse (s : List Char) : Option Int :=
  let t := pyStripChars pyIsSpace s
  match t with
  | '+' :: ds =>
    if !ds.isEmpty && ds.all isDigitCh then some (Int.ofNat (digitsToNat ds)) else none
  | '-' :: ds =>
    if !ds.isEmpty && ds.all isDigitCh then some (-(Int.ofNat (digitsToNat ds))) else none
  | ds =>
    if !ds.isEmpty && ds.all isDigitCh then some (Int.ofNat (digitsToNat ds)) else none

/-- Exponent suffix of a float literal: empty, or `e`/`E`, an optional sign
and a non-empty digit run. -/
def floatExpOk : List Char → Bool
  | [] => true
  | c :: rest =>
    (c = 'e' || c = 'E') &&
      (match rest with
       | '+' :: ds => !ds.isEmpty && ds.all isDigitCh
       | '-' :: ds => !ds.isEmpty && ds.all isDigitCh
       | ds => !ds.isEmpty && ds.all isDigitCh)

/-- Unsigned mantissa-with-exponent shape accepted by Python `float()`. -/
def pyFloatNoSign (t : List Char) : Bool :=
  let intPart := t.takeWhile isDigitCh
  let rest1 := t.dropWhile isDigitCh
  if intPart.isEmpty then
    match rest1 with
    | '.' :: r2 => !(r2.takeWhile isDigitCh).isEmpty && floatExpOk (r2.dropWhile isDigitCh)
    | _ => false
  else
    match rest1 with
    | '.' :: r2 => floatExpOk (r2.dropWhile isDigitCh)
    | r => floatExpOk r

/-- Success predicate of Python `float(val)`: strip whitespace, one optional
sign, then a decimal literal or `inf`/`infinity`/`nan` (case-insensitive). -/
def pyFloatOk (s : List Char) : Bool :=
  let t := pyStripChars pyIsSpace s
  let body := match t with
    | '+' :: r => r
    | '-' :: r => r
    | r => r
  pyFloatNoSign body ||
    (pyLowerList body = "inf".toList || pyLowerList body = "infinity".toList ||
      pyLowerList body = "nan".toList : Bool)

/-- Typed cell values of a projected row. The numeric value of a `float` cell
is kept as its source text: no claim observes float arithmetic. -/
inductive PyVal where
  | intVal (n : Int)
  | floatVal (text : List Char)
  | strVal (s : List Char)
deriving DecidableEq, Repr

/-- A parsed mapping JSON as consumed by `apply_mapping_to_record`. -/
structure MappingSpec where
  target_table : List Char
  columns : List ColumnMapping

/-- Per-column body of the `apply_mapping_to_record` loop: resolve the path
(`None` for a falsy xpath), then coerce per declared type, `None` on any
coercion failure; non-`int`/`float` types pass the text through. -/
def projectCol (record : Node) (col : ColumnMapping) : Option PyVal :=
  let raw := if col.source_xpath.isEmpty then none else getByXpath record col.source_xpath
  match raw with
  | none => none
  | some node =>
    match col.type with
    | .int => (pyIntParse (pyStr node)).map PyVal.intVal
    | .float => if pyFloatOk (pyStr node) then some (PyVal.floatVal (pyStr node)) else none
    | _ => some (PyVal.strVal (pyStr node))

/-- The `apply_mapping_to_record` row builder: a dict filled per column in
mapping order. -/
def applyMappingToRecord (record : Node) (mapping : MappingSpec) :
    List (List Char × Option PyVal) :=
  mapping.columns.foldl (fun row col => dictInsert col.name (projectCol record col) row) []

/-- Dict read-back: first entry with the given key. -/
def rowGet {β : Type} (row : List (List Char × β)) (k : List Char) : Option β :=
  (row.find? (fun e => decide (e.1 = k))).map (fun e => e.2)

/-- Inserting a fresh key appends the pair at the end of the dict. -/
theorem dictInsert_fresh {β : Type} {k : List Char} {v : β}
    {d : List (List Char × β)} (h : k ∉ d.map Prod.fst) :
    dictInsert k v d = d ++ [(k, v)] := by
  induction d with
  | nil => rfl
  | cons e rest ih =>
    obtain ⟨k0, v0⟩ := e
    simp only [List.map_cons, List.mem_cons] at h
    push_neg at h
    have hne : k0 ≠ k := fun hk => h.1 hk.symm
    simp only [dictInsert, hne, if_neg, ite_false, List.cons_append, List.cons.injEq, true_and]
    exact ih h.2

/-- The projector loop over columns with distinct fresh names extends the
accumulator with one `(name, value)` pair per column, in column order. -/
theorem projectFold_shape (record : Node) :
    ∀ (cols : List ColumnMapping) (acc : List (List Char × Option PyVal)),
      (cols.map ColumnMapping.name).Nodup →
      (∀ c ∈ cols, c.name ∉ acc.map Prod.fst) →
      cols.foldl (fun row col => dictInsert col.name (projectCol record col) row) acc =
        acc ++ cols.map (fun col => (col.name, projectCol record col)) := by
  intro cols
  induction cols with
  | nil => intro acc _ _; simp
  | cons c cs ih =>
    intro acc hnodup hfresh
    simp only [List.map_cons, List.nodup_cons] at hnodup
    have hfr : c.name ∉ acc.map Prod.fst := hfresh c (List.mem_cons_self _ _)
    simp only [List.foldl_cons]
    rw [dictInsert_fresh hfr]
    rw [ih (acc ++ [(c.name, projectCol record c)]) hnodup.2 ?hfresh2]
    · simp
    case hfresh2 =>
      intro c2 hc2
      simp only [List.map_append, List.mem_append, List.map_cons, List.map_nil,
        List.mem_singleton, not_or]
      constructor
      · exact hfresh c2 (List.mem_cons_of_mem _ hc2)
      · intro heq
        exact hnodup.1 (heq ▸ List.mem_map_of_mem ColumnMapping.name hc2)

/-- Reading back a column of a shape-exact row yields its projected value. -/
theorem rowGet_projected (record : Node) :
    ∀ (cols : List ColumnMapping), (cols.map ColumnMapping.name).Nodup →
      ∀ col ∈ cols,
        rowGet (cols.map (fun col => (col.name, projectCol record col))) col.name =
          some (projectCol record col) := by
  intro cols
  induction cols with
  | nil => intro _ col hcol; exact absurd hcol (List.not_mem_nil col)
  | cons c cs ih =>
    intro hnodup col hcol
    simp only [List.map_cons, List.nodup_cons] at hnodup
    rcases List.mem_cons.mp hcol with hc | hc
    · subst hc
      simp [rowGet, List.find?]
    · by_cases hname : c.name = col.name
      · exfalso
        exact hnodup.1 (hname ▸ List.mem_map_of_mem ColumnMapping.name hc)
      · have hrec := ih hnodup.2 col hc
        unfold rowGet at hrec ⊢
        simp only [List.map_cons]
        rw [List.find?_cons_of_neg]
        · exact hrec
        · simp only [decide_eq_true_eq]
          exact hname

/-- C4: the record projector is total — for every record and MappingSpec (the
§3 shape, with distinct column names) the produced row has exactly one entry
per column of the MappingSpec in the MappingSpec's order, readable back to the
projected value, which is null on a path-resolution miss (or falsy path) and
null on a failed `int` or `float` coercion. -/
theorem applyMapping_total (record : Node) (mapping : MappingSpec)
    (h : (mapping.columns.map ColumnMapping.name).Nodup) :
    (applyMappingToRecord record mapping).map Prod.fst =
      mapping.columns.map ColumnMapping.name ∧
    (∀ col ∈ mapping.columns,
      rowGet (applyMappingToRecord record mapping) col.name =
        some (projectCol record col)) ∧
    (∀ col ∈ mapping.columns,
      (col.source_xpath.isEmpty = true ∨ getByXpath record col.source_xpath = none) →
      projectCol record col = none) ∧
    (∀ col ∈ mapping.columns, ∀ node,
      getByXpath record col.source_xpath = some node →
      ((col.type = ColType.int → pyIntParse (pyStr node) = none → projectCol record col = none) ∧
       (col.type = ColType.float → pyFloatOk (pyStr node) = false → projectCol record col = none))) := by
  have hshape : applyMappingToRecord record mapping =
      mapping.columns.map (fun col => (col.name, projectCol record col)) := by
    unfold applyMappingToRecord
    rw [projectFold_shape record mapping.columns [] h (by intro c _; simp)]
    simp
  refine ⟨?_, ?_, ?_, ?_⟩
  · rw [hshape, List.map_map]
    rfl
  · intro col hcol
    rw [hshape]
    exact rowGet_projected record mapping.columns h col hcol
  · intro col _ hmiss
    unfold projectCol
    rcases hmiss with hm | hm
    · simp [hm]
    · by_cases he : col.source_xpath.isEmpty
      · simp [he]
      · simp [he, hm]
  · intro col _ node hnode
    constructor
    · intro htype hparse
      unfold projectCol
      by_cases he : col.source_xpath.isEmpty
      · simp [he]
      · simp [he, hnode, htype, hparse]
    · intro htype hfloat
      unfold projectCol
      by_cases he : col.source_xpath.isEmpty
      · simp [he]
      · simp [he, hnode, htype, hfloat]

/-- Closed instance of `applyMapping_total` on a two-column MappingSpec whose
name-distinctness hypothesis is discharged concretely. -/
theorem applyMapping_total_witness :
    (applyMappingToRecord
        (Node.map [(String.toList "Age", Node.scalar (String.toList "34"))])
        ⟨String.toList "casimage_cases",
          [⟨String.toList "age", ColType.int, String.toList "//age"⟩,
           ⟨String.toList "diagnosis", ColType.string, String.toList "//diagnosis"⟩]⟩).map
      Prod.fst =
    ([⟨String.toList "age", ColType.int, String.toList "//age"⟩,
      ⟨String.toList "diagnosis", ColType.string, String.toList "//diagnosis"⟩] :
        List ColumnMapping).map ColumnMapping.name :=
  (applyMapping_total
    (Node.map [(String.toList "Age", Node.scalar (String.toList "34"))])
    ⟨String.toList "casimage_cases",
      [⟨String.toList "age", ColType.int, String.toList "//age"⟩,
       ⟨String.toList "diagnosis", ColType.string, String.toList "//diagnosis"⟩]⟩
    (by decide)).1

/-! ### Mapping synthesis (`ai_propose_mapping`, `ai_mapper.py` lines 117-198) -/

/-- One mapping column rendered as `json.dumps` with `indent=2` renders it
inside the `columns` array. Names and paths produced by the pipeline are in
`[a-z0-9_/]`, so JSON string escaping never fires. -/
def renderColJson (c : ColumnMapping) : List Char :=
  (String.toList "    \x7b\n      \"name\": \"") ++ c.name ++
    (String.toList "\",\n      \"type\": \"") ++ c.type.render ++
    (String.toList "\",\n      \"source_xpath\": \"") ++ c.source_xpath ++
    (String.toList "\"\n    \x7d")

/-- Comma-newline join of rendered columns. -/
def joinCommaNl : List (List Char) → List Char
  | [] => []
  | [x] => x
  | x :: xs => x ++ (String.toList ",\n") ++ joinCommaNl xs

/-- The full mapping JSON string produced by `_infer_types_from_samples`
(`json.dumps(mapping, ensure_ascii=False, indent=2)`). -/
def renderMappingJson (cols : List ColumnMapping) : List Char :=
  (String.toList "\x7b\n  \"target_table\": \"casimage_cases\",\n  \"columns\": [") ++
    (if cols.isEmpty then String.toList "]"
     else (String.toList "\n") ++ joinCommaNl (cols.map renderColJson) ++
       (String.toList "\n  ]")) ++
    (String.toList "\n\x7d")

/-- The string returned by `_infer_types_from_samples`. -/
def inferTypesFromSamples (samples : List (List Char × List Char)) : List Char :=
  renderMappingJson (inferColumns samples)

/-- Characters allowed in the tag group of `r"-\s+([A-Za-z0-9:_-]+)\s+\("`. -/
def isTagCh (c : Char) : Bool := isWordCh c || c = ':' || c = '-'

/-- Attempt of the summary-line tag regex anchored at the current position:
`-`, whitespace, the tag group, whitespace, `(`. -/
def tagAt : List Char → Option (List Char)
  | '-' :: rest =>
    let r1 := rest.dropWhile pyIsSpace
    if (rest.takeWhile pyIsSpace).isEmpty then none
    else
      let g := r1.takeWhile isTagCh
      let r2 := r1.dropWhile isTagCh
      if g.isEmpty then none
      else
        let r3 := r2.dropWhile pyIsSpace
        if (r2.takeWhile pyIsSpace).isEmpty then none
        else
          match r3 with
          | '(' :: _ => some g
          | _ => none
  | _ => none

/-- Leftmost search of the summary-line tag regex
(`re.search(r"-\s+([A-Za-z0-9:_-]+)\s+\(", line)`, `ai_mapper.py` line 141). -/
def findTagInLine : List Char → Option (List Char)
  | [] => none
  | c :: rest =>
    match tagAt (c :: rest) with
    | some g => some g
    | none => findTagInLine rest

/-- Sequence-prefix test used by the substring search. -/
def startsWithSeq : List Char → List Char → Bool
  | [], _ => true
  | _ :: _, [] => false
  | n :: ns, h :: hs => n = h && startsWithSeq ns hs

/-- Python substring containment (`needle in hay`). -/
def listContainsSub (needle : List Char) : List Char → Bool
  | [] => needle.isEmpty
  | h :: hs => startsWithSeq needle (h :: hs) || listContainsSub needle hs

/-- The artificial offline samples of `ai_propose_mapping` (lines 139-149):
one per extracted tag, capped at 30, valued `"123"` for id-like tags and
`"text"` otherwise. -/
def offlineSamples (structureSummary : List Char) : List (List Char × List Char) :=
  let tags := ((structureSummary.splitOn '\n').filterMap findTagInLine)
  (tags.take 30).map (fun t =>
    (t, if listContainsSub (String.toList "id") (pyLowerList t)
        then String.toList "123" else String.toList "text"))

/-- Model of `re.search(r"\{.*\}", content, re.S)`: the span from the first
opening brace to the last closing brace after it, if both exist; the caller
falls back to `content` itself otherwise. -/
def braceExtract (content : List Char) : List Char :=
  let rest := content.dropWhile (fun c => c ≠ '\x7b')
  match rest with
  | [] => content
  | _ :: _ =>
    let rrest := rest.reverse.dropWhile (fun c => c ≠ '\x7d')
    match rrest with
    | [] => content
    | _ :: _ => rrest.reverse

/-- The `ai_propose_mapping` entry point. The delegated call (client setup,
request, and `content` retrieval inside the `try`) is abstracted as an
`Except`: `error` is any raised exception (unreachable collaborator, timeout,
missing fields), `ok` is the response text. -/
def aiProposeMapping (apiKey : Option (List Char))
    (collabResponse : Except Unit (List Char)) (structureSummary : List Char) :
    List Char :=
  match apiKey with
  | none => inferTypesFromSamples (offlineSamples structureSummary)
  | some _ =>
    match collabResponse with
    | .error _ =>
      inferTypesFromSamples
        [(String.toList "id", String.toList "1"),
         (String.toList "diagnosis", String.toList "text")]
    | .ok response => braceExtract (pyStripChars pyIsSpace response)

/-- Every rendered mapping JSON is non-empty and brace-delimited. -/
theorem renderMappingJson_shape (cols : List ColumnMapping) :
    renderMappingJson cols ≠ [] ∧ (renderMappingJson cols).head? = some '\x7b' ∧
      (renderMappingJson cols).getLast? = some '\x7d' := by
  have hh : (renderMappingJson cols).head? = some '\x7b' := by
    unfold renderMappingJson
    simp only [List.head?_append]
    rfl
  have hl : (renderMappingJson cols).getLast? = some '\x7d' := by
    unfold renderMappingJson
    simp only [List.getLast?_append]
    rfl
  refine ⟨?_, hh, hl⟩
  intro hnil
  rw [hnil] at hh
  exact Option.noConfusion hh

/-- Amended C2: `ai_propose_mapping` never raises; without an API key it runs
local inference on the summary-extracted tags, and an exception in the
delegated call (unreachable collaborator, timeout, missing response fields)
falls back unconditionally to local inference over the fixed sample
`[("id","1"), ("diagnosis","text")]` — every local-inference output being a
non-empty brace-delimited JSON object. A successful delegated response,
however, is returned as the span from its first opening brace to its last
closing brace (or the stripped response verbatim when no such span exists),
with no JSON validation and no fallback. -/
theorem aiProposeMapping_amended :
    (∀ (key summary : List Char) (e : Unit),
      aiProposeMapping (some key) (.error e) summary =
        inferTypesFromSamples [(String.toList "id", String.toList "1"),
          (String.toList "diagnosis", String.toList "text")]) ∧
    (∀ (key summary content : List Char),
      aiProposeMapping (some key) (.ok content) summary =
        braceExtract (pyStripChars pyIsSpace content)) ∧
    (∀ (collab : Except Unit (List Char)) (summary : List Char),
      aiProposeMapping none collab summary =
        inferTypesFromSamples (offlineSamples summary)) ∧
    (∀ samples : List (List Char × List Char),
      inferTypesFromSamples samples ≠ [] ∧
      (inferTypesFromSamples samples).head? = some '\x7b' ∧
      (inferTypesFromSamples samples).getLast? = some '\x7d') :=
  ⟨fun _ _ _ => rfl, fun _ _ _ => rfl, fun _ _ => rfl,
    fun samples => renderMappingJson_shape (inferColumns samples)⟩

/-- C2 as stated is false: with an API key present and a successful response
`"hello"` (no JSON anywhere), `ai_propose_mapping` returns `"hello"` itself —
a string with no brace, hence no MappingSpec — instead of falling back to
local inference. -/
theorem aiProposeMapping_counterexample :
    aiProposeMapping (some (String.toList "k")) (Except.ok (String.toList "hello"))
        (String.toList "summary") = String.toList "hello" ∧
    ((String.toList "hello").all (fun c => decide (c ≠ '\x7b')) = true) ∧
    aiProposeMapping (some (String.toList "k")) (Except.ok (String.toList "hello"))
        (String.toList "summary") ≠
      inferTypesFromSamples [(String.toList "id", String.toList "1"),
        (String.toList "diagnosis", String.toList "text")] := by
  refine ⟨by decide, by decide, ?_⟩
  intro h
  have hsh := (renderMappingJson_shape (inferColumns
    [(String.toList "id", String.toList "1"),
     (String.toList "diagnosis", String.toList "text")])).2.1
  rw [show inferTypesFromSamples [(String.toList "id", String.toList "1"),
    (String.toList "diagnosis", String.toList "text")] =
    renderMappingJson (inferColumns [(String.toList "id", String.toList "1"),
      (String.toList "diagnosis", String.toList "text")]) from rfl] at h
  rw [← h] at hsh
  exact absurd hsh (by decide)

/-! ### Text normalization and age heuristics (`enhanced_cleaning.py`) -/

/-- The control characters removed by `normalize_text`
(`[\x00-\x1F\x7F-\x9F]`). -/
def isCtrlCh (c : Char) : Bool :=
  decide (c.toNat ≤ 31 ∨ (127 ≤ c.toNat ∧ c.toNat ≤ 159))

/-- Python `s.replace("***", " ")`: non-overlapping left-to-right. -/
def replaceStars : List Char → List Char
  | '*' :: '*' :: '*' :: rest => ' ' :: replaceStars rest
  | c :: rest => c :: replaceStars rest
  | [] => []

/-- Helper for whitespace-run collapapsing (`re.sub(r"\s+", " ", s)`); the flag
records an open whitespace run whose single space was already emitted. -/
def collapseWsAux : Bool → List Char → List Char
  | _, [] => []
  | inRun, c :: cs =>
    if pyIsSpace c then
      if inRun then collapseWsAux true cs else ' ' :: collapseWsAux true cs
    else c :: collapseWsAux false cs

/-- The `normalize_text` cleaner (`enhanced_cleaning.py` lines 38-57): blank
out control characters, drop `***` artifacts, collapse whitespace runs, strip. -/
def normalizeText (s : List Char) : List Char :=
  pyStripChars pyIsSpace
    (collapseWsAux false (replaceStars (s.map (fun c => if isCtrlCh c then ' ' else c))))

/-- Python `\w` over the character ranges reached by the corpus and patterns:
ASCII word characters plus the Latin-1/Latin-Extended-A letters. -/
def isPyWordCh (c : Char) : Bool :=
  isWordCh c ||
    decide ((0xC0 ≤ c.toNat ∧ c.toNat ≤ 0x17F) ∧ c.toNat ≠ 0xD7 ∧ c.toNat ≠ 0xF7)

/-- Word-character test of an optional character (`None` outside the text). -/
def isWordOpt : Option Char → Bool
  | none => false
  | some c => isPyWordCh c

/-- A `\b` boundary between a previous and a next character. -/
def boundaryHolds (prev next : Option Char) : Bool := isWordOpt prev != isWordOpt next

/-- Right-boundary test after a literal (`\b` with a word character on the
left). -/
def boundaryAfterWord (rest : List Char) : Bool := !isWordOpt rest.head?

/-- The age-unit alternation `(ans|an|yo|years?)\b` of `AGE_REGEX` at the
current position. -/
def ageUnitOk (l : List Char) : Bool :=
  (startsWithSeq (String.toList "ans") l && boundaryAfterWord (l.drop 3)) ||
  (startsWithSeq (String.toList "an") l && boundaryAfterWord (l.drop 2)) ||
  (startsWithSeq (String.toList "yo") l && boundaryAfterWord (l.drop 2)) ||
  (startsWithSeq (String.toList "years") l && boundaryAfterWord (l.drop 5)) ||
  (startsWithSeq (String.toList "year") l && boundaryAfterWord (l.drop 4))

/-- One anchored attempt of `AGE_REGEX` = `(\b\d{1,2})\s*(ans|an|yo|years?)\b`:
a word boundary, one or two digits (greedy), optional whitespace, a unit. -/
def ageMatchAt (prev : Option Char) : List Char → Option Nat
  | [] => none
  | d1 :: rest1 =>
    if isWordOpt prev || !isDigitCh d1 then none
    else
      match rest1 with
      | [] => none
      | d2 :: rest2 =>
        if isDigitCh d2 && ageUnitOk (rest2.dropWhile pyIsSpace) then
          some (digitsToNat [d1, d2])
        else if ageUnitOk (rest1.dropWhile pyIsSpace) then some (digitsToNat [d1])
        else none

/-- Leftmost search of `AGE_REGEX`, returning its first captured group. -/
def ageSearchAux (prev : Option Char) : List Char → Option Nat
  | [] => none
  | c :: rest =>
    match ageMatchAt prev (c :: rest) with
    | some n => some n
    | none => ageSearchAux (some c) rest

/-- `AGE_REGEX.search(text)` with the numeric first group. -/
def ageRegexSearch (t : List Char) : Option Nat := ageSearchAux none t

/-- Tail of the duration-cue regex after its digits: `\s+ans`. -/
def depuisTail (r : List Char) : Bool :=
  !(r.takeWhile pyIsSpace).isEmpty &&
    startsWithSeq (String.toList "ans") (r.dropWhile pyIsSpace)

/-- One anchored attempt of `depuis\s+\d{1,2}\s+ans`. -/
def depuisAt (l : List Char) : Bool :=
  startsWithSeq (String.toList "depuis") l &&
    (let r1 := l.drop 6
     !(r1.takeWhile pyIsSpace).isEmpty &&
      (match r1.dropWhile pyIsSpace with
       | [] => false
       | d1 :: rest1 =>
         isDigitCh d1 &&
           (match rest1 with
            | [] => false
            | d2 :: rest2 =>
              (isDigitCh d2 && depuisTail rest2) || depuisTail rest1)))

/-- Leftmost search of the duration cue `depuis\s+\d{1,2}\s+ans`. -/
def depuisSearch : List Char → Bool
  | [] => false
  | c :: rest => depuisAt (c :: rest) || depuisSearch rest

/-- The `extract_age_from_text` heuristic (`enhanced_cleaning.py` lines
67-91): normalize and lowercase, reject duration cues (`depuis N ans`) and the
disease-course term `évolution`, then take the first age-regex hit in
`[1, 120]`. A `none` input models a non-string cell. -/
def extractAgeFromText (text : Option (List Char)) : Option Nat :=
  match text with
  | none => none
  | some s =>
    let t := pyLowerList (normalizeText s)
    if depuisSearch t then none
    else if listContainsSub (String.toList "évolution") t then none
    else
      match ageRegexSearch t with
      | some age => if 1 ≤ age ∧ age ≤ 120 then some age else none
      | none => none

/-- A DataFrame row as seen by `df.apply(..., axis=1)`: cells keyed by column
name; `none` models a missing column or a `NaN` cell. -/
def Row : Type := List (List Char × Option (List Char))

/-- The `row.get(col, None)` accessor collapsing missing and `NaN` to `none`. -/
def rowGetCell (row : Row) (k : String) : Option (List Char) :=
  match (List.find? (fun e => decide (e.1 = k.toList)) row) with
  | none => none
  | some e => e.2

/-- First hit of the free-text age scan over the candidate columns. -/
def textAgeScan (row : Row) : List String → Option Nat
  | [] => none
  | c :: cs =>
    match extractAgeFromText (rowGetCell row c) with
    | some a => some a
    | none => textAgeScan row cs

/-- The `fix_age` resolver (`enhanced_cleaning.py` lines 94-129). The
`pd.to_datetime(..., errors="coerce", dayfirst=True).year` reads of step 3 are
abstracted as the `toYear` parameter, pandas being an excluded collaborator;
the claims hold for every parser. -/
def fixAge (toYear : Option (List Char) → Option Int) (row : Row) : Option Nat :=
  match (match rowGetCell row "Age" with
    | none => none
    | some ageStr =>
      match pyIntParse ageStr with
      | some n => if 1 ≤ n ∧ n ≤ 120 then some n.toNat else none
      | none => none) with
  | some a => some a
  | none =>
    match textAgeScan row ["ClinicalPresentation", "Description", "Title"] with
    | some a => some a
    | none =>
      match toYear (rowGetCell row "Birthdate"), toYear (rowGetCell row "Date") with
      | some birthYear, some examYear =>
        if 1 ≤ examYear - birthYear ∧ examYear - birthYear ≤ 120 then
          some (examYear - birthYear).toNat
        else none
      | _, _ => none

/-! ### Sex inference (`enhanced_cleaning.py` lines 136-227) -/

/-- Items of the compiled sex patterns: literals, a character class, word
boundaries and the one-character negative lookahead. -/
inductive PatItem where
  | lit (c : Char)
  | cls (cs : List Char)
  | boundary
  | nla (c : Char)

/-- Matcher of a pattern anchored at the current position; `prev` is the
character before it (for `\b`). -/
def matchItems : List PatItem → Option Char → List Char → Bool
  | [], _, _ => true
  | .boundary :: ps, prev, rest =>
    boundaryHolds prev rest.head? && matchItems ps prev rest
  | .lit c :: ps, _, rest =>
    match rest with
    | [] => false
    | d :: ds => d = c && matchItems ps (some d) ds
  | .cls cs :: ps, _, rest =>
    match rest with
    | [] => false
    | d :: ds => cs.contains d && matchItems ps (some d) ds
  | .nla c :: ps, prev, rest => !(rest.head? == some c) && matchItems ps prev rest

/-- Leftmost `re.search` of a compiled pattern. -/
def searchPatAux (pat : List PatItem) : Option Char → List Char → Bool
  | prev, [] => matchItems pat prev []
  | prev, c :: rest => matchItems pat prev (c :: rest) || searchPatAux pat (some c) rest

/-- Whether a compiled pattern matches anywhere in the text. -/
def reSearch (pat : List PatItem) (t : List Char) : Bool := searchPatAux pat none t

/-- A `\b...\b`-delimited literal pattern. -/
def litPat (s : String) : List PatItem :=
  (PatItem.boundary :: s.toList.map PatItem.lit) ++ [PatItem.boundary]

/-- The apostrophe class `['’]` of the `d['’]un(e)` patterns. -/
def apoCls : PatItem := PatItem.cls ['\x27', '’']

/-- The `SEX_PATTERNS["M"]` table, in source order. -/
def sexPatternsM : List (List PatItem) :=
  [litPat "homme",
   litPat "garçon",
   litPat "patient" ++ [PatItem.nla 'e'],
   litPat "masculin",
   litPat "il présente",
   litPat "il consulte",
   litPat "il s\x27agit",
   litPat "il a",
   litPat "le patient" ++ [PatItem.nla 'e'],
   (PatItem.boundary :: [PatItem.lit 'd', apoCls]) ++
     ((String.toList "un homme").map PatItem.lit ++ [PatItem.boundary]),
   litPat "chez lui",
   litPat "mr",
   litPat "m."]

/-- The `SEX_PATTERNS["F"]` table, in source order. -/
def sexPatternsF : List (List PatItem) :=
  [litPat "femme",
   litPat "fille",
   litPat "patiente",
   litPat "patientes",
   litPat "féminin",
   litPat "elle présente",
   litPat "elle consulte",
   litPat "elle s\x27agit",
   litPat "elle a",
   litPat "la patiente",
   (PatItem.boundary :: [PatItem.lit 'd', apoCls]) ++
     ((String.toList "une femme").map PatItem.lit ++ [PatItem.boundary]),
   litPat "chez elle",
   litPat "mme",
   litPat "mme.",
   litPat "mademoiselle",
   litPat "mle"]

/-- The `SEX_KEYWORDS["M"]` anatomical table. -/
def sexKeywordsM : List (List Char) :=
  [String.toList "prostate", String.toList "testicule", String.toList "scrotum",
   String.toList "verge", String.toList "pénis", String.toList "penis",
   String.toList "epididyme", String.toList "épididyme", String.toList "andropause"]

/-- The `SEX_KEYWORDS["F"]` anatomical table. -/
def sexKeywordsF : List (List Char) :=
  [String.toList "ovaire", String.toList "ovaires", String.toList "utérus",
   String.toList "uterus", String.toList "grossesse", String.toList "endomètre",
   String.toList "endometre", String.toList "fœtus", String.toList "foetus",
   String.toList "ménopause", String.toList "menopause", String.toList "gynécologie",
   String.toList "gynecologie", String.toList "mamelle"]

/-- The pattern stage of `infer_sex_from_text` on normalized lowercase text:
`M` patterns then `F` patterns, in table order. -/
def patternSexOfText (t : List Char) : List Char :=
  if sexPatternsM.any (fun p => reSearch p t) then String.toList "M"
  else if sexPatternsF.any (fun p => reSearch p t) then String.toList "F"
  else []

/-- The keyword stage of `infer_sex_from_text` on normalized lowercase text. -/
def keywordSexOfText (t : List Char) : List Char :=
  if sexKeywordsM.any (fun k => listContainsSub k t) then String.toList "M"
  else if sexKeywordsF.any (fun k => listContainsSub k t) then String.toList "F"
  else []

/-- The `infer_sex_from_text` heuristic (lines 186-210): per call, the pattern
tables first, the keyword tables only after they all fail. -/
def inferSexFromText (text : Option (List Char)) : List Char :=
  match text with
  | none => []
  | some s =>
    let t := pyLowerList (normalizeText s)
    if sexPatternsM.any (fun p => reSearch p t) then String.toList "M"
    else if sexPatternsF.any (fun p => reSearch p t) then String.toList "F"
    else if sexKeywordsM.any (fun k => listContainsSub k t) then String.toList "M"
    else if sexKeywordsF.any (fun k => listContainsSub k t) then String.toList "F"
    else []

/-- Model of Python `str.upper()` per character on ASCII and Latin-1. -/
def pyUpperChar (c : Char) : Char :=
  if (97 ≤ c.toNat ∧ c.toNat ≤ 122) ∨
      (0xE0 ≤ c.toNat ∧ c.toNat ≤ 0xFE ∧ c.toNat ≠ 0xF7) then
    Char.ofNat (c.toNat - 32)
  else c

/-- The explicit `Sex` field normalization of `fix_sex`:
`str(row.get("Sex", "")).strip().upper()` (a `NaN` cell prints as `"nan"`). -/
def explicitSexVal (row : Row) : List Char :=
  (pyStripChars pyIsSpace
    (match rowGetCell row "Sex" with
     | none => String.toList "nan"
     | some s => s)).map pyUpperChar

/-- The candidate text columns scanned by `fix_sex`, in source order. -/
def sexScanCols : List String :=
  ["ClinicalPresentation", "Description", "Commentary", "Title", "KeyWords"]

/-- The per-field scan loop of `fix_sex`. -/
def sexFieldScan (row : Row) : List String → List Char
  | [] => []
  | c :: cs =>
    match inferSexFromText (rowGetCell row c) with
    | [] => sexFieldScan row cs
    | s => s

/-- The `fix_sex` resolver (lines 213-227): keep an explicit `M`/`F`, else
scan the candidate columns, each column running patterns then keywords. -/
def fixSex (row : Row) : List Char :=
  let v := explicitSexVal row
  if v = String.toList "M" ∨ v = String.toList "F" then v
  else sexFieldScan row sexScanCols

/-! ### The cleaning pipeline (`apply_enhanced_cleaning`, lines 233-280) -/

/-- A DataFrame: column names plus one cell dict per row. -/
structure DFrame where
  cols : List (List Char)
  rows : List Row

/-- Cell accessor by list-typed key. -/
def rowGetCellL (row : Row) (k : List Char) : Option (List Char) :=
  match List.find? (fun e => decide (e.1 = k)) row with
  | none => none
  | some e => e.2

/-- The `text_cols` list of `apply_enhanced_cleaning`, in source order. -/
def textCols : List (List Char) :=
  [String.toList "Description", String.toList "ClinicalPresentation",
   String.toList "Diagnosis", String.toList "Title", String.toList "Commentary",
   String.toList "KeyWords", String.toList "Anatomy", String.toList "Chapter",
   String.toList "Hospital", String.toList "Department"]

/-- One pass of `df[col] = df[col].astype(str).apply(normalize_text)`:
`astype(str)` turns a `NaN` cell into the literal string `"nan"`. -/
def normalizeColCell (c : List Char) (r : Row) : Row :=
  dictInsert c
    (some (normalizeText (match rowGetCellL r c with
      | none => String.toList "nan"
      | some s => s))) r

/-- The text-normalization stage over every present `text_cols` column. -/
def cleanTextRows (df : DFrame) : List Row :=
  textCols.foldl
    (fun rs c => if df.cols.contains c then rs.map (normalizeColCell c) else rs)
    df.rows

/-- Decimal rendering of a resolved age for its `Age` cell. -/
def natDigits (n : Nat) : List Char := Nat.toDigits 10 n

/-- The guarded age-fix stage: `df["Age"] = df.apply(fix_age, axis=1)` only
when an `Age` column exists. -/
def rowAfterAge (toYear : Option (List Char) → Option Int) (hasAge : Bool) (r : Row) : Row :=
  if hasAge then dictInsert (String.toList "Age") ((fixAge toYear r).map natDigits) r else r

/-- The sex-fix stage: `df["Sex"] = df.apply(fix_sex, axis=1)`. -/
def rowAfterSex (r : Row) : Row := dictInsert (String.toList "Sex") (some (fixSex r)) r

/-- Column names starting with a capital `O`. -/
def startsO : List Char → Bool
  | 'O' :: _ => true
  | _ => false

/-- The metadata-column drop applied to one row. -/
def rowDropO (r : Row) : Row := r.filter (fun e => !startsO e.1)

/-- Per-row composition of the age, sex and column-drop stages. -/
def rowPipeline (toYear : Option (List Char) → Option Int) (hasAge : Bool) (r : Row) : Row :=
  rowDropO (rowAfterSex (rowAfterAge toYear hasAge r))

/-- Column list after the `Sex` assignment and the `O*` drop. -/
def colsPipeline (cols : List (List Char)) : List (List Char) :=
  (if cols.contains (String.toList "Sex") then cols
   else cols ++ [String.toList "Sex"]).filter (fun c => !startsO c)

/-- The `apply_enhanced_cleaning` pipeline (`enhanced_cleaning.py` lines
233-280): normalize the text columns, fix `Age` when present, fix `Sex`, drop
`O*` columns, then drop the rows whose `Age` cell is unset — the final step
indexing `df["Age"]` unconditionally, a `KeyError` when the column is
missing. -/
def applyEnhancedCleaning (toYear : Option (List Char) → Option Int) (df : DFrame) :
    Except String DFrame :=
  let hasAge := df.cols.contains (String.toList "Age")
  let rows1 := cleanTextRows df
  let rows2 := rows1.map (rowPipeline toYear hasAge)
  let cols2 := colsPipeline df.cols
  if cols2.contains (String.toList "Age") then
    Except.ok ⟨cols2, rows2.filter (fun r => (rowGetCellL r (String.toList "Age")).isSome)⟩
  else Except.error "KeyError"

/-! ### Theorems on the cleaning pipeline -/

/-- Stage 1 of the claimed age precedence: an existing numeric age in
`[1, 120]`. -/
def specAgeStage1 (row : Row) : Option Nat :=
  match rowGetCell row "Age" with
  | none => none
  | some s =>
    match pyIntParse s with
    | some n => if 1 ≤ n ∧ n ≤ 120 then some n.toNat else none
    | none => none

/-- Stage 2 of the claimed age precedence: the free-text regex scan over the
candidate fields in field order. -/
def specAgeStage2 (row : Row) : Option Nat :=
  textAgeScan row ["ClinicalPresentation", "Description", "Title"]

/-- Stage 3 of the claimed age precedence: exam year minus birth year when
both dates parse, accepted in `[1, 120]`. -/
def specAgeStage3 (toYear : Option (List Char) → Option Int) (row : Row) : Option Nat :=
  match toYear (rowGetCell row "Birthdate"), toYear (rowGetCell row "Date") with
  | some birthYear, some examYear =>
    if 1 ≤ examYear - birthYear ∧ examYear - birthYear ≤ 120 then
      some (examYear - birthYear).toNat
    else none
  | _, _ => none

/-- The claimed first-success-wins composition of the three age stages. -/
def specFixAgeClaim (toYear : Option (List Char) → Option Int) (row : Row) : Option Nat :=
  ((specAgeStage1 row).orElse (fun _ => specAgeStage2 row)).orElse
    (fun _ => specAgeStage3 toYear row)

/-- Key search skips an entry with a different key. -/
theorem find?_key_cons_ne {β : Type} {k0 k1 : List Char} (hne : k0 ≠ k1) (v0 : β)
    (rest : List (List Char × β)) :
    List.find? (fun e => decide (e.1 = k1)) ((k0, v0) :: rest) =
      List.find? (fun e => decide (e.1 = k1)) rest := by
  simp [List.find?, hne]

/-- Key search stops at an entry with the searched key. -/
theorem find?_key_cons_eq {β : Type} {k0 k1 : List Char} (heq : k0 = k1) (v0 : β)
    (rest : List (List Char × β)) :
    List.find? (fun e => decide (e.1 = k1)) ((k0, v0) :: rest) = some (k0, v0) := by
  simp [List.find?, heq]

/-- Reading the just-inserted key gives the inserted value. -/
theorem rowGet_dictInsert_self (k : List Char) (v : Option (List Char)) (r : Row) :
    rowGetCellL (dictInsert k v r) k = v := by
  induction r with
  | nil => simp [dictInsert, rowGetCellL, List.find?]
  | cons e rest ih =>
    obtain ⟨k0, v0⟩ := e
    by_cases h : k0 = k
    · simp [dictInsert, h, rowGetCellL, List.find?]
    · simp only [dictInsert, h, if_neg, ite_false]
      unfold rowGetCellL at ih ⊢
      rw [find?_key_cons_ne h]
      exact ih

/-- Reading another key is unaffected by `dictInsert`. -/
theorem rowGet_dictInsert_ne {k1 k : List Char} (hne : k1 ≠ k) (v : Option (List Char))
    (r : Row) : rowGetCellL (dictInsert k v r) k1 = rowGetCellL r k1 := by
  have hnk : k ≠ k1 := fun hc => hne hc.symm
  induction r with
  | nil =>
    simp only [dictInsert, rowGetCellL]
    rw [find?_key_cons_ne hnk]
  | cons e rest ih =>
    obtain ⟨k0, v0⟩ := e
    by_cases h : k0 = k
    · subst h
      simp only [dictInsert, if_pos, ite_true]
      unfold rowGetCellL
      rw [find?_key_cons_ne hnk, find?_key_cons_ne hnk]
    · simp only [dictInsert, h, if_neg, ite_false]
      unfold rowGetCellL at ih ⊢
      by_cases hk0 : k0 = k1
      · rw [find?_key_cons_eq hk0, find?_key_cons_eq hk0]
      · rw [find?_key_cons_ne hk0, find?_key_cons_ne hk0]
        exact ih

/-- Dropping the `O*` cells leaves the other cells readable. -/
theorem rowGet_rowDropO {k : List Char} (hk : startsO k = false) (r : Row) :
    rowGetCellL (rowDropO r) k = rowGetCellL r k := by
  induction r with
  | nil => rfl
  | cons e rest ih =>
    obtain ⟨k0, v0⟩ := e
    by_cases hk0 : k0 = k
    · subst hk0
      simp only [rowDropO, List.filter_cons, hk, Bool.not_false, if_pos, ite_true]
      unfold rowGetCellL
      rw [find?_key_cons_eq rfl, find?_key_cons_eq rfl]
    · unfold rowDropO at ih ⊢
      simp only [List.filter_cons]
      cases hdrop : !startsO k0 with
      | true =>
        simp only [if_pos, ite_true]
        unfold rowGetCellL at ih ⊢
        rw [find?_key_cons_ne hk0, find?_key_cons_ne hk0]
        exact ih
      | false =>
        simp only [Bool.false_eq_true, if_neg, ite_false]
        unfold rowGetCellL at ih ⊢
        rw [find?_key_cons_ne hk0]
        exact ih

/-- The final `Age` cell of a processed row is exactly the rendered `fix_age`
result. -/
theorem rowPipeline_age_cell (toYear : Option (List Char) → Option Int) (r : Row) :
    rowGetCellL (rowPipeline toYear true r) (String.toList "Age") =
      (fixAge toYear r).map natDigits := by
  unfold rowPipeline rowAfterSex rowAfterAge
  rw [rowGet_rowDropO (by decide)]
  rw [rowGet_dictInsert_ne (by decide)]
  simp only [if_pos, ite_true]
  exact rowGet_dictInsert_self _ _ _

/-- C3: age resolution tries, first success wins, (1) an existing numeric age
in `[1,120]`, (2) the regex scan of the candidate free-text fields in field
order with duration-cue rejection, (3) exam year minus birth year in
`[1,120]`; and the cleaned output keeps exactly the processed rows whose
`Age` cell resolved, the `Age` cell being the rendered `fix_age` result. -/
theorem fixAge_precedence_and_drop :
    (∀ (toYear : Option (List Char) → Option Int) (row : Row),
      fixAge toYear row = specFixAgeClaim toYear row) ∧
    (∀ (toYear : Option (List Char) → Option Int) (df : DFrame) (out : DFrame),
      applyEnhancedCleaning toYear df = .ok out →
      out.rows = ((cleanTextRows df).map
          (rowPipeline toYear (df.cols.contains (String.toList "Age")))).filter
        (fun r => (rowGetCellL r (String.toList "Age")).isSome)) ∧
    (∀ (toYear : Option (List Char) → Option Int) (df : DFrame) (out : DFrame),
      applyEnhancedCleaning toYear df = .ok out →
      ∀ r ∈ out.rows, (rowGetCellL r (String.toList "Age")).isSome = true) ∧
    (∀ (toYear : Option (List Char) → Option Int) (r : Row),
      rowGetCellL (rowPipeline toYear true r) (String.toList "Age") =
        (fixAge toYear r).map natDigits) := by
  refine ⟨?_, ?_, ?_, rowPipeline_age_cell⟩
  · intro toYear row
    unfold fixAge specFixAgeClaim
    rw [show (match rowGetCell row "Age" with
      | none => none
      | some ageStr =>
        match pyIntParse ageStr with
        | some n => if 1 ≤ n ∧ n ≤ 120 then some n.toNat else none
        | none => none) = specAgeStage1 row from rfl]
    rw [show textAgeScan row ["ClinicalPresentation", "Description", "Title"] =
      specAgeStage2 row from rfl]
    rw [show (match toYear (rowGetCell row "Birthdate"), toYear (rowGetCell row "Date") with
      | some birthYear, some examYear =>
        if 1 ≤ examYear - birthYear ∧ examYear - birthYear ≤ 120 then
          some (examYear - birthYear).toNat
        else none
      | _, _ => none) = specAgeStage3 toYear row from rfl]
    cases specAgeStage1 row <;> cases specAgeStage2 row <;> rfl
  · intro toYear df out h
    unfold applyEnhancedCleaning at h
    by_cases hc : (colsPipeline df.cols).contains (String.toList "Age")
    · simp only [hc, if_pos, ite_true] at h
      cases h
      rfl
    · simp only [hc, Bool.false_eq_true, if_neg, ite_false] at h
      exact Except.noConfusion h
  · intro toYear df out h r hr
    unfold applyEnhancedCleaning at h
    by_cases hc : (colsPipeline df.cols).contains (String.toList "Age")
    · simp only [hc, if_pos, ite_true] at h
      cases h
      have hr2 : r ∈ List.filter (fun r => (rowGetCellL r (String.toList "Age")).isSome)
          ((cleanTextRows df).map
            (rowPipeline toYear (df.cols.contains (String.toList "Age")))) := hr
      exact (List.mem_filter.mp hr2).2
    · simp only [hc, Bool.false_eq_true, if_neg, ite_false] at h
      exact Except.noConfusion h

/-- Closed instance of `fixAge_precedence_and_drop` on a one-row frame with a
textual age, discharging its `ok`-result hypothesis concretely. -/
theorem fixAge_precedence_and_drop_witness :
    rowGetCellL (rowPipeline (fun _ => none) true
        [(String.toList "Age", none),
         (String.toList "ClinicalPresentation",
           some (String.toList "patient de 45 ans"))])
      (String.toList "Age") =
    (fixAge (fun _ => none)
        [(String.toList "Age", none),
         (String.toList "ClinicalPresentation",
           some (String.toList "patient de 45 ans"))]).map natDigits :=
  fixAge_precedence_and_drop.2.2.2 (fun _ => none)
    [(String.toList "Age", none),
     (String.toList "ClinicalPresentation", some (String.toList "patient de 45 ans"))]

/-- Bridge between the Boolean `contains` and list membership. -/
theorem containsL_iff {l : List (List Char)} {a : List Char} :
    l.contains a = true ↔ a ∈ l := by simp

/-- The pipeline's final column list holds `Age` exactly when the input does:
the `Sex` assignment adds no `Age` and the `O*` drop never removes it. -/
theorem age_mem_colsPipeline (cols : List (List Char)) :
    String.toList "Age" ∈ colsPipeline cols ↔ String.toList "Age" ∈ cols := by
  unfold colsPipeline
  rw [List.mem_filter]
  constructor
  · rintro ⟨hin, _⟩
    by_cases hs : cols.contains (String.toList "Sex") = true
    · rwa [if_pos hs] at hin
    · rw [if_neg hs] at hin
      rcases List.mem_append.mp hin with hin | hin
      · exact hin
      · exact absurd (List.mem_singleton.mp hin) (by decide)
  · intro hin
    refine ⟨?_, by decide⟩
    by_cases hs : cols.contains (String.toList "Sex") = true
    · rwa [if_pos hs]
    · rw [if_neg hs]
      exact List.mem_append.mpr (Or.inl hin)

/-- C9: `apply_enhanced_cleaning` raises `KeyError` exactly when the input has
no `Age` column — the final age-drop step indexes `df["Age"]` unconditionally
while `fix_age` runs only under the `"Age" in df.columns` guard, so a frame
without that column never reaches text-based age recovery and always raises. -/
theorem cleaning_age_keyerror (toYear : Option (List Char) → Option Int) (df : DFrame) :
    (String.toList "Age" ∉ df.cols →
      applyEnhancedCleaning toYear df = .error "KeyError") ∧
    (String.toList "Age" ∈ df.cols →
      ∃ out, applyEnhancedCleaning toYear df = .ok out) := by
  constructor
  · intro hnot
    unfold applyEnhancedCleaning
    have hc : ¬((colsPipeline df.cols).contains (String.toList "Age") = true) := by
      intro hab
      exact hnot ((age_mem_colsPipeline df.cols).mp (containsL_iff.mp hab))
    rw [if_neg hc]
  · intro hin
    unfold applyEnhancedCleaning
    have hc : (colsPipeline df.cols).contains (String.toList "Age") = true :=
      containsL_iff.mpr ((age_mem_colsPipeline df.cols).mpr hin)
    rw [if_pos hc]
    exact ⟨_, rfl⟩

/-- Closed instance of `cleaning_age_keyerror` on a frame without an `Age`
column, discharging the absence hypothesis concretely. -/
theorem cleaning_age_keyerror_witness :
    applyEnhancedCleaning (fun _ => none)
        ⟨[String.toList "Sex"], [[(String.toList "Sex", some (String.toList "M"))]]⟩ =
      .error "KeyError" :=
  (cleaning_age_keyerror (fun _ => none)
    ⟨[String.toList "Sex"], [[(String.toList "Sex", some (String.toList "M"))]]⟩).1
    (by decide)

/-- C10: on every successful run, no output column starts with a capital `O`,
and every input column not starting with a capital `O` is carried through. -/
theorem cleaning_drops_O_cols (toYear : Option (List Char) → Option Int)
    (df out : DFrame) (h : applyEnhancedCleaning toYear df = .ok out) :
    (∀ c ∈ out.cols, startsO c = false) ∧
    (∀ c ∈ df.cols, startsO c = false → c ∈ out.cols) := by
  unfold applyEnhancedCleaning at h
  by_cases hc : (colsPipeline df.cols).contains (String.toList "Age") = true
  · rw [if_pos hc] at h
    cases h
    constructor
    · intro c hcmem
      have := (List.mem_filter.mp hcmem).2
      simpa using this
    · intro c hcmem hO
      show c ∈ colsPipeline df.cols
      unfold colsPipeline
      rw [List.mem_filter]
      refine ⟨?_, by simp [hO]⟩
      by_cases hs : df.cols.contains (String.toList "Sex") = true
      · rwa [if_pos hs]
      · rw [if_neg hs]
        exact List.mem_append.mpr (Or.inl hcmem)
  · rw [if_neg hc] at h
    exact Except.noConfusion h

/-- Closed instance of `cleaning_drops_O_cols` on a frame with an `OrigForm`
column, discharging its success hypothesis concretely. -/
theorem cleaning_drops_O_cols_witness :
    String.toList "Age" ∈
      (DFrame.mk [String.toList "Age", String.toList "Sex"] [] : DFrame).cols :=
  (cleaning_drops_O_cols (fun _ => none)
    ⟨[String.toList "Age", String.toList "OrigForm"], []⟩
    ⟨[String.toList "Age", String.toList "Sex"], []⟩ rfl).2
    (String.toList "Age") (by decide) (by decide)

/-- One stage (pattern tables, or keyword tables) scanned across the candidate
fields in field order, as the claimed global-stage sex resolution reads. -/
def sexStageScan (stage : List Char → List Char) (row : Row) : List String → List Char
  | [] => []
  | c :: cs =>
    match rowGetCell row c with
    | none => sexStageScan stage row cs
    | some s =>
      match stage (pyLowerList (normalizeText s)) with
      | [] => sexStageScan stage row cs
      | r => r

/-- C5 as stated: explicit value first, then the pattern stage over all
fields, and only after the whole pattern stage fails the keyword stage over
all fields. -/
def specFixSexClaim (row : Row) : List Char :=
  let v := explicitSexVal row
  if v = String.toList "M" ∨ v = String.toList "F" then v
  else
    match sexStageScan patternSexOfText row sexScanCols with
    | [] => sexStageScan keywordSexOfText row sexScanCols
    | s => s

/-- Per-field composition actually implemented by `infer_sex_from_text`:
patterns, then keywords, on one field's text. -/
def combinedSexStage (t : List Char) : List Char :=
  match patternSexOfText t with
  | [] => keywordSexOfText t
  | s => s

/-- Per-field amended form of the sex resolution. -/
def specFixSexAmended (row : Row) : List Char :=
  let v := explicitSexVal row
  if v = String.toList "M" ∨ v = String.toList "F" then v
  else sexStageScan combinedSexStage row sexScanCols

/-- The per-call stage split of `infer_sex_from_text`. -/
theorem inferSex_eq_stages (cell : Option (List Char)) :
    inferSexFromText cell =
      (match cell with
       | none => []
       | some s => combinedSexStage (pyLowerList (normalizeText s))) := by
  cases cell with
  | none => rfl
  | some s =>
    unfold inferSexFromText combinedSexStage patternSexOfText keywordSexOfText
    by_cases hM : sexPatternsM.any (fun p => reSearch p (pyLowerList (normalizeText s)))
    · simp [hM]
    · by_cases hF : sexPatternsF.any (fun p => reSearch p (pyLowerList (normalizeText s)))
      · simp [hM, hF]
      · simp [hM, hF]

/-- The `fix_sex` field loop equals the per-field combined-stage scan. -/
theorem sexFieldScan_eq (row : Row) :
    ∀ cols : List String, sexFieldScan row cols = sexStageScan combinedSexStage row cols := by
  intro cols
  induction cols with
  | nil => rfl
  | cons c cs ih =>
    show (match inferSexFromText (rowGetCell row c) with
      | [] => sexFieldScan row cs
      | s => s) =
      (match rowGetCell row c with
       | none => sexStageScan combinedSexStage row cs
       | some s =>
         match combinedSexStage (pyLowerList (normalizeText s)) with
         | [] => sexStageScan combinedSexStage row cs
         | r => r)
    rw [inferSex_eq_stages]
    cases rowGetCell row c with
    | none => exact ih
    | some s =>
      show (match combinedSexStage (pyLowerList (normalizeText s)) with
        | [] => sexFieldScan row cs
        | r => r) =
        (match combinedSexStage (pyLowerList (normalizeText s)) with
         | [] => sexStageScan combinedSexStage row cs
         | r => r)
      cases combinedSexStage (pyLowerList (normalizeText s)) with
      | nil => exact ih
      | cons a as => rfl

/-- Amended C5: sex resolution keeps an explicit `M`/`F` (so an explicit `F`
beats prostate-class keywords in the text), and otherwise scans the candidate
fields in field order where EACH field is checked against the ordered pattern
tables and then, if no pattern matches that field, against the closed
anatomical keyword table — the first field yielding either kind of hit wins,
so a keyword hit in an earlier field beats a pattern hit in a later field; if
everything fails the sex is empty and the row is kept. -/
theorem fixSex_per_field :
    (∀ row : Row, fixSex row = specFixSexAmended row) ∧
    fixSex [(String.toList "Sex", some (String.toList "F")),
      (String.toList "Description", some (String.toList "prostate"))] =
      String.toList "F" ∧
    applyEnhancedCleaning (fun _ => none)
        ⟨[String.toList "Age", String.toList "Sex"],
         [[(String.toList "Age", some (String.toList "50")),
           (String.toList "Sex", none)]]⟩ =
      .ok ⟨[String.toList "Age", String.toList "Sex"],
        [[(String.toList "Age", some (String.toList "50")),
          (String.toList "Sex", some [])]]⟩ := by
  refine ⟨?_, by decide, by rfl⟩
  intro row
  unfold fixSex specFixSexAmended
  by_cases hv : explicitSexVal row = String.toList "M" ∨
      explicitSexVal row = String.toList "F"
  · rw [if_pos hv, if_pos hv]
  · rw [if_neg hv, if_neg hv]
    exact sexFieldScan_eq row sexScanCols

/-- C5 as stated is false: with no explicit sex, a keyword-only field
(`ClinicalPresentation` = "ovaire") coming before a pattern-matching field
(`Description` = "homme"), the code answers `F` from the earlier field's
keyword while the claimed global pattern-stage-first order answers `M`. -/
theorem fixSex_counterexample :
    fixSex [(String.toList "Sex", none),
      (String.toList "ClinicalPresentation", some (String.toList "ovaire")),
      (String.toList "Description", some (String.toList "homme"))] =
      String.toList "F" ∧
    specFixSexClaim [(String.toList "Sex", none),
      (String.toList "ClinicalPresentation", some (String.toList "ovaire")),
      (String.toList "Description", some (String.toList "homme"))] =
      String.toList "M" ∧
    fixSex [(String.toList "Sex", none),
      (String.toList "ClinicalPresentation", some (String.toList "ovaire")),
      (String.toList "Description", some (String.toList "homme"))] ≠
    specFixSexClaim [(String.toList "Sex", none),
      (String.toList "ClinicalPresentation", some (String.toList "ovaire")),
      (String.toList "Description", some (String.toList "homme"))] := by
  refine ⟨by decide, by decide, by decide⟩

/-! ### The star-schema builder (`build_star_schema`, `dw_model.py` lines 34-90) -/

/-- One attribute tuple: the row projected onto a dimension group's columns,
with `none` for `NaN` — tuple equality is null-aware, as in pandas
`drop_duplicates`/`merge`. -/
def projTuple (cols : List (List Char)) (r : Row) : List (Option (List Char)) :=
  cols.map (fun c => rowGetCellL r c)

/-- First-seen-order deduplication (`drop_duplicates`), seen set accumulated
on the left. -/
def fsDedupAux {α : Type} [DecidableEq α] (seen : List α) : List α → List α
  | [] => []
  | x :: xs => if x ∈ seen then fsDedupAux seen xs else x :: fsDedupAux (x :: seen) xs

/-- `drop_duplicates().reset_index(drop=True)` over a list. -/
def fsDedup {α : Type} [DecidableEq α] (l : List α) : List α := fsDedupAux [] l

/-- A dimension table: deduplicated attribute tuples with sequential surrogate
keys assigned in first-seen order starting at 1. -/
def dimTable (cols : List (List Char)) (rows : List Row) :
    List (Nat × List (Option (List Char))) :=
  (fsDedup (rows.map (projTuple cols))).enum.map (fun p => (p.1 + 1, p.2))

/-- The left-merge key fetch: the surrogate key of the first dimension row
whose attribute tuple equals the source row's tuple. -/
def lookupKey (dim : List (Nat × List (Option (List Char))))
    (t : List (Option (List Char))) : Option Nat :=
  (dim.find? (fun e => decide (e.2 = t))).map (fun e => e.1)

/-- The `CaseNaturalKey` assignment (`dw_model.py` line 38):
`df.get("ID", df.index).astype(str)` — the `ID` column stringified (`NaN`
printing as `"nan"`), or the positional index rendered in decimal. -/
def caseKeyRows (df : DFrame) : List Row :=
  let caseKeys : List (List Char) :=
    if df.cols.contains (String.toList "ID") then
      df.rows.map (fun r =>
        match rowGetCellL r (String.toList "ID") with
        | none => String.toList "nan"
        | some s => s)
    else (List.range df.rows.length).map natDigits
  (df.rows.zip caseKeys).map
    (fun p => dictInsert (String.toList "CaseNaturalKey") (some p.2) p.1)

/-- The `DimPatient` group columns present in the frame, in source order. -/
def patientDimCols (df : DFrame) : List (List Char) :=
  [String.toList "Sex", String.toList "Age", String.toList "Birthdate",
   String.toList "AgeGroup"].filter (fun c => df.cols.contains c)

/-- The `DimExam` group columns present in the frame, in source order. -/
def examDimCols (df : DFrame) : List (List Char) :=
  [String.toList "Date", String.toList "Year", String.toList "Hospital",
   String.toList "Department"].filter (fun c => df.cols.contains c)

/-- The `DimPathology` group columns present in the frame, in source order. -/
def pathDimCols (df : DFrame) : List (List Char) :=
  [String.toList "Diagnosis", String.toList "Chapter", String.toList "Description",
   String.toList "KeyWords", String.toList "Anatomy", String.toList "Title"].filter
    (fun c => df.cols.contains c)

/-- One fact row before fact-key assignment: the `FactCase` column projection
of a merged row. -/
structure FactRow where
  caseNaturalKey : Option (List Char)
  patientKey : Option Nat
  examKey : Option Nat
  pathologyKey : Option Nat
  sourceFile : Option (List Char)
  clinicalPresentation : Option (List Char)
  commentary : Option (List Char)
deriving DecidableEq, Repr

/-- The star schema produced by `build_star_schema`. -/
structure StarSchema where
  dimPatient : List (Nat × List (Option (List Char)))
  dimExam : List (Nat × List (Option (List Char)))
  dimPathology : List (Nat × List (Option (List Char)))
  factCase : List (Nat × FactRow)

/-- The `build_star_schema` algorithm. The three `how="left"` merges only
annotate each row with its group's surrogate key (each dimension tuple is
unique, so row count and order are preserved), so the keys are computed
per row; an empty dimension group or a missing `FactCase` column is the
raised-exception case (`merge` on no columns / `KeyError`). -/
def buildStarSchema (df : DFrame) : Except String StarSchema :=
  let rows1 := caseKeyRows df
  let pCols := patientDimCols df
  let eCols := examDimCols df
  let hCols := pathDimCols df
  if pCols.isEmpty || eCols.isEmpty || hCols.isEmpty then Except.error "MergeError"
  else if !(df.cols.contains (String.toList "SourceFile") &&
      df.cols.contains (String.toList "ClinicalPresentation") &&
      df.cols.contains (String.toList "Commentary")) then Except.error "KeyError"
  else
    let dimP := dimTable pCols rows1
    let dimE := dimTable eCols rows1
    let dimH := dimTable hCols rows1
    let factRows := rows1.map (fun r =>
      FactRow.mk (rowGetCellL r (String.toList "CaseNaturalKey"))
        (lookupKey dimP (projTuple pCols r))
        (lookupKey dimE (projTuple eCols r))
        (lookupKey dimH (projTuple hCols r))
        (rowGetCellL r (String.toList "SourceFile"))
        (rowGetCellL r (String.toList "ClinicalPresentation"))
        (rowGetCellL r (String.toList "Commentary")))
    Except.ok
      ⟨dimP, dimE, dimH, (fsDedup factRows).enum.map (fun p => (p.1 + 1, p.2))⟩

/-- Deduplication keeps every element not already seen. -/
theorem mem_fsDedupAux {α : Type} [DecidableEq α] :
    ∀ (l : List α) (seen : List α) (x : α), x ∈ l →
      x ∈ fsDedupAux seen l ∨ x ∈ seen := by
  intro l
  induction l with
  | nil => intro seen x hx; exact absurd hx (List.not_mem_nil x)
  | cons y ys ih =>
    intro seen x hx
    by_cases hy : y ∈ seen
    · simp only [fsDedupAux, hy, if_pos, ite_true]
      rcases List.mem_cons.mp hx with hx | hx
      · exact Or.inr (hx ▸ hy)
      · exact ih seen x hx
    · simp only [fsDedupAux, hy, if_neg, ite_false]
      rcases List.mem_cons.mp hx with hx | hx
      · exact Or.inl (List.mem_cons.mpr (Or.inl hx))
      · rcases ih (y :: seen) x hx with h | h
        · exact Or.inl (List.mem_cons.mpr (Or.inr h))
        · rcases List.mem_cons.mp h with h | h
          · exact Or.inl (List.mem_cons.mpr (Or.inl h))
          · exact Or.inr h

/-- Membership survives first-seen deduplication. -/
theorem mem_fsDedup {α : Type} [DecidableEq α] {l : List α} {x : α} (h : x ∈ l) :
    x ∈ fsDedup l := by
  rcases mem_fsDedupAux l [] x h with h1 | h1
  · exact h1
  · exact absurd h1 (List.not_mem_nil x)

/-- Deduplication creates no new elements. -/
theorem fsDedupAux_sub {α : Type} [DecidableEq α] :
    ∀ (l : List α) (seen : List α) (x : α), x ∈ fsDedupAux seen l → x ∈ l := by
  intro l
  induction l with
  | nil => intro seen x hx; exact absurd hx (List.not_mem_nil x)
  | cons y ys ih =>
    intro seen x hx
    by_cases hy : y ∈ seen
    · simp only [fsDedupAux, hy, if_pos, ite_true] at hx
      exact List.mem_cons.mpr (Or.inr (ih seen x hx))
    · simp only [fsDedupAux, hy, if_neg, ite_false] at hx
      rcases List.mem_cons.mp hx with hx | hx
      · exact List.mem_cons.mpr (Or.inl hx)
      · exact List.mem_cons.mpr (Or.inr (ih (y :: seen) x hx))

/-- Every member of a list receives a surrogate key above the enumeration
base. -/
theorem mem_shiftEnum_of_mem {α : Type} :
    ∀ (l : List α) (a : α), a ∈ l → ∀ n : Nat,
      ∃ k, n < k ∧ (k, a) ∈ (l.enumFrom n).map (fun p => (p.1 + 1, p.2)) := by
  intro l
  induction l with
  | nil => intro a ha; exact absurd ha (List.not_mem_nil a)
  | cons x xs ih =>
    intro a ha n
    rcases List.mem_cons.mp ha with ha | ha
    · exact ⟨n + 1, Nat.lt_succ_self n, by rw [ha]; exact List.mem_cons.mpr (Or.inl rfl)⟩
    · obtain ⟨k, hk, hmem⟩ := ih a ha (n + 1)
      exact ⟨k, Nat.lt_of_succ_lt hk, List.mem_cons.mpr (Or.inr hmem)⟩

/-- Enumerated pairs carry members of the underlying list. -/
theorem snd_mem_enumFrom {α : Type} :
    ∀ (l : List α) (n : Nat) (p : Nat × α), p ∈ l.enumFrom n → p.2 ∈ l := by
  intro l
  induction l with
  | nil => intro n p hp; exact absurd hp (List.not_mem_nil p)
  | cons x xs ih =>
    intro n p hp
    rcases List.mem_cons.mp hp with hp | hp
    · exact List.mem_cons.mpr (Or.inl (by rw [hp]))
    · exact List.mem_cons.mpr (Or.inr (ih (n + 1) p hp))

/-- The surrogate keys of a shifted enumeration are sequential from the base. -/
theorem map_fst_shiftEnum {α : Type} :
    ∀ (l : List α) (n : Nat),
      ((l.enumFrom n).map (fun p => (p.1 + 1, p.2))).map Prod.fst =
        List.range' (n + 1) l.length := by
  intro l
  induction l with
  | nil => intro n; rfl
  | cons x xs ih =>
    intro n
    show (n + 1) :: ((xs.enumFrom (n + 1)).map (fun p => (p.1 + 1, p.2))).map Prod.fst =
      List.range' (n + 1) (xs.length + 1)
    rw [ih (n + 1)]
    rfl

/-- Dimension surrogate keys are sequential integers starting at 1. -/
theorem dimTable_keys (cols : List (List Char)) (rows : List Row) :
    (dimTable cols rows).map Prod.fst = List.range' 1 (dimTable cols rows).length := by
  show (((fsDedup (rows.map (projTuple cols))).enumFrom 0).map
      (fun p => (p.1 + 1, p.2))).map Prod.fst =
    List.range' 1 (((fsDedup (rows.map (projTuple cols))).enumFrom 0).map
      (fun p => (p.1 + 1, p.2))).length
  rw [map_fst_shiftEnum, List.length_map, List.enumFrom_length]

/-- The join-key fetch is total on tuples of the dimension's own source rows:
it yields a surrogate key at least 1 that an existing dimension row carries. -/
theorem lookupKey_total {cols : List (List Char)} {rows : List Row}
    {t : List (Option (List Char))} (h : t ∈ rows.map (projTuple cols)) :
    ∃ k, lookupKey (dimTable cols rows) t = some k ∧ 1 ≤ k ∧
      (k, t) ∈ dimTable cols rows := by
  have hded : t ∈ fsDedup (rows.map (projTuple cols)) := mem_fsDedup h
  obtain ⟨k0, hk0, hmem0⟩ := mem_shiftEnum_of_mem _ t hded 0
  have hmem : (k0, t) ∈ (fsDedup (rows.map (projTuple cols))).enum.map
      (fun p => (p.1 + 1, p.2)) := hmem0
  unfold dimTable
  unfold lookupKey
  cases hfind : ((fsDedup (rows.map (projTuple cols))).enum.map
      (fun p => (p.1 + 1, p.2))).find? (fun e => decide (e.2 = t)) with
  | none =>
    rw [List.find?_eq_none] at hfind
    exact absurd (by simp : decide (((k0, t) : Nat × List (Option (List Char))).2 = t) = true)
      (hfind (k0, t) hmem)
  | some e =>
    have hpe : e.2 = t := by simpa using List.find?_some hfind
    have hemem := List.mem_of_find?_eq_some hfind
    obtain ⟨p, _, hp⟩ := List.mem_map.mp hemem
    refine ⟨e.1, rfl, ?_, ?_⟩
    · rw [← hp]
      omega
    · have : ((e.1, t) : Nat × List (Option (List Char))) = e := by
        rw [Prod.ext_iff]
        exact ⟨rfl, hpe.symm⟩
      rw [this]
      exact hemem

/-- C1: for every frame whose star schema builds, the fact-to-dimension join
is total for all three dimension groups — every fact row carries non-null
`PatientKey`, `ExamKey` and `PathologyKey`, each at least 1 and each carried
by an existing dimension row — and every dimension's surrogate keys are
sequential in first-seen order starting at 1. -/
theorem buildStarSchema_join_total (df : DFrame) (sch : StarSchema)
    (h : buildStarSchema df = .ok sch) :
    (∀ f ∈ sch.factCase,
      (∃ k, f.2.patientKey = some k ∧ 1 ≤ k ∧ ∃ t, (k, t) ∈ sch.dimPatient) ∧
      (∃ k, f.2.examKey = some k ∧ 1 ≤ k ∧ ∃ t, (k, t) ∈ sch.dimExam) ∧
      (∃ k, f.2.pathologyKey = some k ∧ 1 ≤ k ∧ ∃ t, (k, t) ∈ sch.dimPathology)) ∧
    sch.dimPatient.map Prod.fst = List.range' 1 sch.dimPatient.length ∧
    sch.dimExam.map Prod.fst = List.range' 1 sch.dimExam.length ∧
    sch.dimPathology.map Prod.fst = List.range' 1 sch.dimPathology.length := by
  unfold buildStarSchema at h
  by_cases hempty : ((patientDimCols df).isEmpty || (examDimCols df).isEmpty ||
      (pathDimCols df).isEmpty) = true
  · rw [if_pos hempty] at h
    exact Except.noConfusion h
  · rw [if_neg hempty] at h
    by_cases hfact : (!(df.cols.contains (String.toList "SourceFile") &&
        df.cols.contains (String.toList "ClinicalPresentation") &&
        df.cols.contains (String.toList "Commentary"))) = true
    · rw [if_pos hfact] at h
      exact Except.noConfusion h
    · rw [if_neg hfact] at h
      cases h
      refine ⟨?_, dimTable_keys _ _, dimTable_keys _ _, dimTable_keys _ _⟩
      intro f hf
      obtain ⟨p, hp, hpf⟩ := List.mem_map.mp hf
      have hfr : f.2 ∈ fsDedup ((caseKeyRows df).map (fun r =>
          FactRow.mk (rowGetCellL r (String.toList "CaseNaturalKey"))
            (lookupKey (dimTable (patientDimCols df) (caseKeyRows df))
              (projTuple (patientDimCols df) r))
            (lookupKey (dimTable (examDimCols df) (caseKeyRows df))
              (projTuple (examDimCols df) r))
            (lookupKey (dimTable (pathDimCols df) (caseKeyRows df))
              (projTuple (pathDimCols df) r))
            (rowGetCellL r (String.toList "SourceFile"))
            (rowGetCellL r (String.toList "ClinicalPresentation"))
            (rowGetCellL r (String.toList "Commentary")))) := by
        rw [← hpf]
        exact snd_mem_enumFrom _ 0 p hp
      have hsrc := fsDedupAux_sub _ [] _ hfr
      obtain ⟨r, hr, hrf⟩ := List.mem_map.mp hsrc
      refine ⟨?_, ?_, ?_⟩
      · obtain ⟨k, hk, hk1, hkt⟩ :=
          lookupKey_total (List.mem_map_of_mem (projTuple (patientDimCols df)) hr)
        exact ⟨k, by rw [← hrf]; exact hk, hk1, _, hkt⟩
      · obtain ⟨k, hk, hk1, hkt⟩ :=
          lookupKey_total (List.mem_map_of_mem (projTuple (examDimCols df)) hr)
        exact ⟨k, by rw [← hrf]; exact hk, hk1, _, hkt⟩
      · obtain ⟨k, hk, hk1, hkt⟩ :=
          lookupKey_total (List.mem_map_of_mem (projTuple (pathDimCols df)) hr)
        exact ⟨k, by rw [← hrf]; exact hk, hk1, _, hkt⟩

/-- Closed instance of `buildStarSchema_join_total` on a one-row frame,
discharging its successful-build hypothesis and the fact-row membership
concretely. -/
theorem buildStarSchema_join_total_witness :
    (∃ k, (FactRow.mk (some (String.toList "0")) (some 1) (some 1) (some 1)
        (some (String.toList "f1")) (some (String.toList "cp")) none).patientKey =
          some k ∧ 1 ≤ k ∧
        ∃ t, (k, t) ∈ [(1, [some (String.toList "M")])]) ∧
    (∃ k, (FactRow.mk (some (String.toList "0")) (some 1) (some 1) (some 1)
        (some (String.toList "f1")) (some (String.toList "cp")) none).examKey =
          some k ∧ 1 ≤ k ∧
        ∃ t, (k, t) ∈ [(1, [some (String.toList "2020")])]) ∧
    (∃ k, (FactRow.mk (some (String.toList "0")) (some 1) (some 1) (some 1)
        (some (String.toList "f1")) (some (String.toList "cp")) none).pathologyKey =
          some k ∧ 1 ≤ k ∧
        ∃ t, (k, t) ∈ [(1, [some (String.toList "flu")])]) :=
  (buildStarSchema_join_total
    ⟨[String.toList "Sex", String.toList "Date", String.toList "Diagnosis",
      String.toList "SourceFile", String.toList "ClinicalPresentation",
      String.toList "Commentary"],
     [[(String.toList "Sex", some (String.toList "M")),
       (String.toList "Date", some (String.toList "2020")),
       (String.toList "Diagnosis", some (String.toList "flu")),
       (String.toList "SourceFile", some (String.toList "f1")),
       (String.toList "ClinicalPresentation", some (String.toList "cp")),
       (String.toList "Commentary", none)]]⟩
    ⟨[(1, [some (String.toList "M")])], [(1, [some (String.toList "2020")])],
     [(1, [some (String.toList "flu")])],
     [(1, FactRow.mk (some (String.toList "0")) (some 1) (some 1) (some 1)
        (some (String.toList "f1")) (some (String.toList "cp")) none)]⟩
    rfl).1
    (1, FactRow.mk (some (String.toList "0")) (some 1) (some 1) (some 1)
      (some (String.toList "f1")) (some (String.toList "cp")) none)
    (by decide)

end Casimage
